import Mathlib

/-!
Verification of the RCPSP-based tournament scheduler
(`scheduleMatches`, `rescheduleMatches`, `validateSchedule`, `MatchQueue`).

Shallow embedding conventions:
* JS `Date` values are integers (milliseconds); durations and rest times are
  integers (minutes), scaled by 60000 exactly as in the source.
* Team/court/match identities (`string | number` in the source) are `String`;
  a participant slot given as a `Team` object collapses to its `id`, and the
  JS truthiness test on a primitive participant becomes the test against `""`.
* JS `Map` is an insertion-ordered association list with unique keys
  (`mapSet` = `Map.set`, first-position overwrite; `mapLookup` = `Map.get`);
  JS `Set` is an insertion-ordered duplicate-free list (`setAdd` = `Set.add`).
* JS `Array.sort` (stable since ES2019) is a stable insertion sort `sortBy`;
  `localeCompare` is code-point lexicographic comparison (`strLe`).
* The `undefined` produced by `teamIds[1]` on a one-team match is the `none`
  of an `Option String` key, exactly mirroring the `undefined` Map key.
* The two `while` loops get explicit structure: the event flush recurses on
  the event list, and the outer simulation loop takes a fuel parameter; fuel
  exhaustion is a distinguished error, so every `.ok` result corresponds to a
  genuine terminating run of the source loop.
-/

/-! ### JS Map / Set model -/

def mapLookup {κ β : Type} [DecidableEq κ] : List (κ × β) → κ → Option β
  | [], _ => none
  | (k, v) :: rest, key => if k = key then some v else mapLookup rest key

/-- JS `Map.set`: overwrite the value at the first occurrence of the key,
or append a new entry (JS Maps keep insertion order, replaced keys keep
their original position). -/
def mapSet {κ β : Type} [DecidableEq κ] (key : κ) (val : β) : List (κ × β) → List (κ × β)
  | [] => [(key, val)]
  | (k, v) :: rest => if k = key then (k, val) :: rest else (k, v) :: mapSet key val rest

/-- The `if (!m.has(k)) m.set(k, dflt); f(m.get(k))` idiom (`ensureTeamState`
followed by field mutation, or `dependents` bucket creation followed by `add`). -/
def mapEnsureThen {κ β : Type} [DecidableEq κ] (key : κ) (dflt : β) (f : β → β) :
    List (κ × β) → List (κ × β)
  | [] => [(key, f dflt)]
  | (k, v) :: rest =>
    if k = key then (k, f v) :: rest else (k, v) :: mapEnsureThen key dflt f rest

/-- JS `Set.add`: append unless already present. -/
def setAdd {κ : Type} [DecidableEq κ] (l : List κ) (x : κ) : List κ :=
  if x ∈ l then l else l ++ [x]

/-- JS `new Set(list)`: insertion-ordered deduplication. -/
def setOfList {κ : Type} [DecidableEq κ] (l : List κ) : List κ :=
  l.foldl setAdd []

/-! ### Stable sort (JS `Array.sort`) and string comparison (`localeCompare`) -/

def insertLe {α : Type} (le : α → α → Bool) (x : α) : List α → List α
  | [] => [x]
  | y :: ys => if le x y then x :: y :: ys else y :: insertLe le x ys

/-- Stable insertion sort; agrees with JS `Array.sort` for any comparator
that induces a total preorder, since JS sort is required to be stable. -/
def sortBy {α : Type} (le : α → α → Bool) : List α → List α
  | [] => []
  | x :: xs => insertLe le x (sortBy le xs)

def charListLe : List Char → List Char → Bool
  | [], _ => true
  | _ :: _, [] => false
  | a :: as, b :: bs => a.toNat < b.toNat || (a.toNat = b.toNat && charListLe as bs)

/-- Code-point lexicographic order on strings, the embedding of
`String(a).localeCompare(String(b)) <= 0`. -/
def strLe (a b : String) : Bool := charListLe a.data b.data

/-! ### Data model (part_003 lines 13-131) -/

/-- `Match` from the source: participant slots hold the identity of a team
(or of a placeholder such as "Winner M1"); `""` stands for a falsy slot. -/
structure MatchRec where
  id : String
  team1 : String
  team2 : String
  round : Int
  duration : Int
  dependencies : List String
deriving DecidableEq, Repr

/-- `Court`: only the identity is ever read by the scheduler. -/
structure Court where
  id : String
deriving DecidableEq, Repr

structure SchedulerConfig where
  restTime : Int
  startTime : Option Int
  courtSetupTime : Option Int
deriving DecidableEq, Repr

structure CompletedScheduledMatch where
  matchId : String
  courtId : String
  actualStartTime : Int
  actualEndTime : Int
  team1Id : String
  team2Id : String
deriving DecidableEq, Repr

structure RescheduleConfig where
  restTime : Int
  startTime : Option Int
  courtSetupTime : Option Int
  currentTime : Int
  completedMatches : List CompletedScheduledMatch
deriving DecidableEq, Repr

structure ScheduledMatch where
  matchId : String
  courtId : String
  startTime : Int
  endTime : Int
  round : Int
deriving DecidableEq, Repr

structure ScheduleSummary where
  totalMatches : Nat
  totalDuration : Int
  courtsUsed : Nat
  endTime : Int
deriving DecidableEq, Repr

structure ScheduleResult where
  schedule : List ScheduledMatch
  summary : ScheduleSummary
deriving DecidableEq, Repr

structure TeamState where
  availableAt : Int
  currentMatch : Option String
deriving DecidableEq, Repr

structure CourtState where
  courtId : String
  availableAt : Int
  currentMatch : Option String
deriving DecidableEq, Repr

structure MatchTask where
  mtch : MatchRec
  remainingDependencies : List String
deriving DecidableEq, Repr

structure Event where
  time : Int
  matchId : String
  courtId : String
  team1Id : Option String
  team2Id : Option String
deriving DecidableEq, Repr

/-- A `MatchQueue` element; the queue shares `MatchTask` objects with the
match map, but a queued task always has an empty remaining-dependency set,
so the queue is represented by the identity plus the (immutable) round. -/
structure QItem where
  id : String
  round : Int
deriving DecidableEq, Repr

/-! ### Helper functions (part_003 lines 133-298) -/

/-- `getTeamIds` (lines 136-152): a falsy slot contributes nothing. -/
def getTeamIds (m : MatchRec) : List String :=
  (if m.team1 ≠ "" then [m.team1] else []) ++ (if m.team2 ≠ "" then [m.team2] else [])

/-- `isTeamAvailable` (lines 157-168). -/
def isTeamAvailable (teamId : String) (time : Int)
    (teamStates : List (Option String × TeamState)) : Bool :=
  match mapLookup teamStates (some teamId) with
  | none => true
  | some st => decide (st.currentMatch = none) && decide (st.availableAt ≤ time)

/-- `areTeamsAvailable` (lines 173-180). -/
def areTeamsAvailable (m : MatchRec) (time : Int)
    (teamStates : List (Option String × TeamState)) : Bool :=
  (getTeamIds m).all (fun tid => isTeamAvailable tid time teamStates)

/-- The `new Date(8640000000000000)` sentinel. -/
def maxDateMs : Int := 8640000000000000

/-- Scan of `findAvailableCourt`: `i` is the index of the court under
inspection, `best`/`bestT` track the strictly earliest availability seen. -/
def facGo (time : Int) : Nat → Option Nat → Int → List CourtState → Option (Nat × Int)
  | _, best, bestT, [] =>
    match best with
    | some j => some (j, bestT)
    | none => none
  | i, best, bestT, c :: rest =>
    if c.availableAt ≤ time ∧ c.currentMatch = none then some (i, time)
    else if c.availableAt < bestT then facGo time (i + 1) (some i) c.availableAt rest
    else facGo time (i + 1) best bestT rest

/-- `findAvailableCourt` (lines 185-208), returning the chosen court's index
in `courtStates` together with the `availableAt` of the result object. -/
def findAvailableCourt (time : Int) (courts : List CourtState) : Option (Nat × Int) :=
  facGo time 0 none maxDateMs courts

/-- `calculateEarliestStartTime` (lines 213-229). -/
def calculateEarliestStartTime (m : MatchRec) (currentTime : Int)
    (teamStates : List (Option String × TeamState)) : Int :=
  (getTeamIds m).foldl
    (fun earliestStart tid =>
      match mapLookup teamStates (some tid) with
      | some st => if st.availableAt > earliestStart then st.availableAt else earliestStart
      | none => earliestStart)
    currentTime

/-- The `MatchQueue.enqueue` comparator (lines 260-267): round ascending,
then match identity ascending (`localeCompare`). -/
def qLe (a b : QItem) : Bool :=
  if a.round = b.round then strLe a.id b.id else decide (a.round < b.round)

/-- `MatchQueue.enqueue` (lines 258-268): push, then re-sort the whole queue. -/
def enqueue (queue : List QItem) (item : QItem) : List QItem :=
  sortBy qLe (queue ++ [item])

/-- `MatchQueue.remove` (lines 290-297): drop the first task with the id. -/
def queueRemove (matchId : String) : List QItem → List QItem
  | [] => []
  | q :: rest => if q.id = matchId then rest else q :: queueRemove matchId rest

/-- The event-queue comparator `(a, b) => a.time - b.time`. -/
def eventLe (a b : Event) : Bool := decide (a.time ≤ b.time)

/-! ### Dependency graph construction (lines 351-377 / 755-792) -/

/-- Lines 355-369: the match map, keyed by id; a duplicate id overwrites. -/
def buildTasks (matchList : List MatchRec) : List (String × MatchTask) :=
  matchList.foldl (fun acc m => mapSet m.id ⟨m, setOfList m.dependencies⟩ acc) []

/-- Lines 362-368: reverse mapping, match id to the set of its dependents. -/
def buildDependents (matchList : List MatchRec) : List (String × List String) :=
  matchList.foldl
    (fun acc m =>
      m.dependencies.foldl
        (fun acc2 depId => mapEnsureThen depId [] (fun s => setAdd s m.id) acc2)
        acc)
    []

/-- Lines 372-377: seed the queue with dependency-free matches. -/
def initQueue (tasks : List (String × MatchTask)) : List QItem :=
  tasks.foldl
    (fun q kt =>
      if kt.2.remainingDependencies = [] then enqueue q ⟨kt.2.mtch.id, kt.2.mtch.round⟩ else q)
    []

/-! ### The placement loop (lines 379-523 / 794-941) -/

/-- Loop-invariant inputs: in reschedule mode `floorTime` is the caller's
current time (the hard no-past floor) and also an extra time-advance
candidate; `initialTime` is the time `ensureTeamState` seeds new states with
(`startTime` for `scheduleMatches`, `currentTime` for `rescheduleMatches`). -/
structure LoopCtx where
  restTime : Int
  courtSetupTime : Int
  floorTime : Option Int
  initialTime : Int
  dependents : List (String × List String)
deriving DecidableEq, Repr

structure LoopState where
  time : Int
  schedule : List ScheduledMatch
  teamStates : List (Option String × TeamState)
  courtStates : List CourtState
  tasks : List (String × MatchTask)
  queue : List QItem
  events : List Event
deriving DecidableEq, Repr

inductive SchedError where
  | noMatches
  | noCourts
  | deadlock
  | incomplete (scheduled total : Nat)
  | outOfFuel
deriving DecidableEq, Repr

/-- Lines 390-394: free the court of a finished match (first id match). -/
def freeCourt (courtId : String) (availAt : Int) : List CourtState → List CourtState
  | [] => []
  | c :: rest =>
    if c.courtId = courtId then { c with currentMatch := none, availableAt := availAt } :: rest
    else c :: freeCourt courtId availAt rest

/-- Lines 407-419: decrement the unmet-dependency sets of the dependents of
a finished match, enqueueing any task whose set becomes empty. -/
def unlockDependents (completedId : String) :
    List String → List (String × MatchTask) → List QItem →
    List (String × MatchTask) × List QItem
  | [], tasks, queue => (tasks, queue)
  | depMatchId :: rest, tasks, queue =>
    match mapLookup tasks depMatchId with
    | none => unlockDependents completedId rest tasks queue
    | some task =>
      let task2 : MatchTask :=
        { task with remainingDependencies := task.remainingDependencies.erase completedId }
      let tasks2 := mapSet depMatchId task2 tasks
      if task2.remainingDependencies = [] then
        unlockDependents completedId rest tasks2 (enqueue queue ⟨task2.mtch.id, task2.mtch.round⟩)
      else unlockDependents completedId rest tasks2 queue

/-- Lines 396-405: a completed participant is freed and set resting. -/
def freeTeam (restEnd : Int) (s : TeamState) : TeamState :=
  { s with currentMatch := none, availableAt := restEnd }

/-- One `MATCH_END` event (lines 386-420): free the court, rest the teams,
unlock dependents. Does not touch `time`, `schedule` or `events`. -/
def processEvent (ctx : LoopCtx) (e : Event) (st : LoopState) : LoopState :=
  { st with
    courtStates := freeCourt e.courtId (e.time + ctx.courtSetupTime * 60000) st.courtStates
    teamStates :=
      mapEnsureThen e.team2Id ⟨ctx.initialTime, none⟩ (freeTeam (e.time + ctx.restTime * 60000))
        (mapEnsureThen e.team1Id ⟨ctx.initialTime, none⟩ (freeTeam (e.time + ctx.restTime * 60000))
          st.teamStates)
    tasks := (unlockDependents e.matchId ((mapLookup ctx.dependents e.matchId).getD [])
      st.tasks st.queue).1
    queue := (unlockDependents e.matchId ((mapLookup ctx.dependents e.matchId).getD [])
      st.tasks st.queue).2 }

/-- The inner `while (events.length > 0 && events[0].time <= currentTime)`;
the list argument always equals `st.events`. -/
def flushAux (ctx : LoopCtx) : List Event → LoopState → LoopState
  | [], st => st
  | e :: rest, st =>
    if e.time ≤ st.time then flushAux ctx rest (processEvent ctx e { st with events := rest })
    else st

def flushEvents (ctx : LoopCtx) (st : LoopState) : LoopState :=
  flushAux ctx st.events st

def courtIdAt (courts : List CourtState) (i : Nat) : String :=
  (courts[i]?.map (fun c => c.courtId)).getD ""

/-- Index-targeted update of the court chosen by `findAvailableCourt`. -/
def setCourtAt (f : CourtState → CourtState) : Nat → List CourtState → List CourtState
  | _, [] => []
  | 0, c :: rest => f c :: rest
  | n + 1, c :: rest => c :: setCourtAt f n rest

/-- Lines 466-471: mark every participant as playing the match. -/
def placeTeams (matchId : String) (initialTime : Int) (teamIds : List String)
    (ts : List (Option String × TeamState)) : List (Option String × TeamState) :=
  teamIds.foldl
    (fun acc tid =>
      mapEnsureThen (some tid) ⟨initialTime, none⟩
        (fun s => { s with currentMatch := some matchId }) acc)
    ts

/-- Lines 439-443 (853-859 in reschedule mode): the start time of a placed
match, `max(courtResult.availableAt, teamEarliestStart)`, floored at the
caller's current time in reschedule mode. -/
def placeStart (ctx : LoopCtx) (st : LoopState) (task : MatchTask) (ci : Nat × Int) : Int :=
  match ctx.floorTime with
  | none => max ci.2 (calculateEarliestStartTime task.mtch st.time st.teamStates)
  | some f => max (max ci.2 (calculateEarliestStartTime task.mtch st.time st.teamStates)) f

/-- Lines 450-487: the state after actually placing a match: entry appended,
court occupied, teams marked playing, end event pushed (and the event list
re-sorted by time), the task removed from the queue. -/
def placeResult (ctx : LoopCtx) (st : LoopState) (task : MatchTask) (ci : Nat × Int) : LoopState :=
  { st with
    schedule := st.schedule ++
      [⟨task.mtch.id, courtIdAt st.courtStates ci.1, placeStart ctx st task ci,
        placeStart ctx st task ci + task.mtch.duration * 60000, task.mtch.round⟩]
    courtStates := setCourtAt
      (fun c =>
        { c with
          currentMatch := some task.mtch.id
          availableAt := placeStart ctx st task ci + task.mtch.duration * 60000 })
      ci.1 st.courtStates
    teamStates := placeTeams task.mtch.id ctx.initialTime (getTeamIds task.mtch) st.teamStates
    events := sortBy eventLe (st.events ++
      [⟨placeStart ctx st task ci + task.mtch.duration * 60000, task.mtch.id,
        courtIdAt st.courtStates ci.1, (getTeamIds task.mtch)[0]?, (getTeamIds task.mtch)[1]?⟩])
    queue := queueRemove task.mtch.id st.queue }

/-- The body of the placement pass for one candidate (lines 426-490):
`none` means `continue`, `some` means the match was placed (`break`). -/
def tryPlace (ctx : LoopCtx) (st : LoopState) (q : QItem) : Option LoopState :=
  match mapLookup st.tasks q.id with
  | none => none
  | some task =>
    if areTeamsAvailable task.mtch st.time st.teamStates then
      match findAvailableCourt st.time st.courtStates with
      | none => none
      | some ci =>
        if placeStart ctx st task ci > st.time then none
        else some (placeResult ctx st task ci)
    else none

/-- The `for (const task of queueSnapshot)` pass (lines 423-490). -/
def placePass (ctx : LoopCtx) : List QItem → LoopState → Option LoopState
  | [], _ => none
  | q :: rest, st =>
    match tryPlace ctx st q with
    | some st2 => some st2
    | none => placePass ctx rest st

/-- Lines 496-518 (and 911-931): earliest strictly later availability of any
tracked team or court, with the reschedule current time as extra candidate. -/
def nextAvailTime (ctx : LoopCtx) (st : LoopState) : Int :=
  let n1 := st.teamStates.foldl
    (fun acc kv => if kv.2.availableAt > st.time ∧ kv.2.availableAt < acc then kv.2.availableAt else acc)
    maxDateMs
  let n2 := st.courtStates.foldl
    (fun acc c => if c.availableAt > st.time ∧ c.availableAt < acc then c.availableAt else acc)
    n1
  match ctx.floorTime with
  | some f => if f > st.time ∧ f < n2 then f else n2
  | none => n2

/-- The main scheduling loop (`while (!queue.isEmpty() || events.length > 0)`,
lines 384-523), with explicit fuel; fuel exhaustion is the distinguished
`outOfFuel` error, so `.ok` results are exactly the terminating runs. -/
def runLoop (ctx : LoopCtx) : Nat → LoopState → Except SchedError LoopState
  | 0, _ => .error .outOfFuel
  | fuel + 1, st =>
    if st.queue = [] ∧ st.events = [] then .ok st
    else
      match placePass ctx (flushEvents ctx st).queue (flushEvents ctx st) with
      | some st2 => runLoop ctx fuel st2
      | none =>
        match (flushEvents ctx st).events with
        | e :: _ => runLoop ctx fuel { flushEvents ctx st with time := e.time }
        | [] =>
          if (flushEvents ctx st).queue = [] then .ok (flushEvents ctx st)
          else
            if nextAvailTime ctx (flushEvents ctx st) < maxDateMs then
              runLoop ctx fuel
                { flushEvents ctx st with time := nextAvailTime ctx (flushEvents ctx st) }
            else .error .deadlock

/-- The final `schedule.sort((a, b) => a.startTime - b.startTime)`. -/
def sortByStart (l : List ScheduledMatch) : List ScheduledMatch :=
  sortBy (fun a b => decide (a.startTime ≤ b.startTime)) l

/-- The `schedule.reduce((max, s) => s.endTime > max ? s.endTime : max, t0)`. -/
def scheduleEndTime (t0 : Int) (schedule : List ScheduledMatch) : Int :=
  schedule.foldl (fun mx s => if s.endTime > mx then s.endTime else mx) t0

/-! ### `scheduleMatches` (lines 324-551) -/

/-- Line 338: the tournament start, `config.startTime || new Date()`;
a `Date` object is always truthy, so only absence falls back to `now`. -/
def smStart (config : SchedulerConfig) (now : Int) : Int :=
  config.startTime.getD now

/-- The loop context of `scheduleMatches`: no no-past floor, team states are
seeded at the tournament start time. -/
def smCtx (matchList : List MatchRec) (config : SchedulerConfig) (now : Int) : LoopCtx :=
  ⟨config.restTime, config.courtSetupTime.getD 0, none, smStart config now,
   buildDependents matchList⟩

/-- The initial simulation state of `scheduleMatches` (lines 342-381). -/
def smInit (matchList : List MatchRec) (courts : List Court) (config : SchedulerConfig)
    (now : Int) : LoopState :=
  ⟨smStart config now, [], [],
   courts.map (fun c => ⟨c.id, smStart config now, none⟩),
   buildTasks matchList, initQueue (buildTasks matchList), []⟩

/-- `scheduleMatches`; `now` is the value `new Date()` would produce (the
only clock read in the function, line 338), `fuel` bounds the loop. -/
def scheduleMatches (matchList : List MatchRec) (courts : List Court)
    (config : SchedulerConfig) (now : Int) (fuel : Nat) : Except SchedError ScheduleResult :=
  if matchList = [] then .error .noMatches
  else if courts = [] then .error .noCourts
  else
    match runLoop (smCtx matchList config now) fuel (smInit matchList courts config now) with
    | .error err => .error err
    | .ok stf =>
      if stf.schedule.length ≠ matchList.length then
        .error (.incomplete stf.schedule.length matchList.length)
      else
        .ok ⟨sortByStart stf.schedule,
             ⟨stf.schedule.length,
              (scheduleEndTime (smStart config now) stf.schedule - smStart config now) / 60000,
              ((stf.schedule.map (fun s => s.courtId)).dedup).length,
              scheduleEndTime (smStart config now) stf.schedule⟩⟩

/-! ### `rescheduleMatches` (lines 682-973) -/

/-- Lines 729-738: push a court's availability forward from a completed match. -/
def paintCourt (courtId : String) (availAt : Int) : List CourtState → List CourtState
  | [] => []
  | c :: rest =>
    if c.courtId = courtId then
      (if availAt > c.availableAt then { c with availableAt := availAt } else c) :: rest
    else c :: paintCourt courtId availAt rest

/-- Lines 740-752: push a team's availability forward (creating its state at
`currentTime` if absent, exactly as `ensureTeamState` does). -/
def paintTeam (teamId : String) (restEnd currentTime : Int)
    (ts : List (Option String × TeamState)) : List (Option String × TeamState) :=
  mapEnsureThen (some teamId) ⟨currentTime, none⟩
    (fun s => if restEnd > s.availableAt then { s with availableAt := restEnd } else s) ts

/-- Lines 727-753: paint the timeline with the completed matches. -/
def paintCompleted (restTime courtSetupTime currentTime : Int)
    (completed : List CompletedScheduledMatch)
    (teams : List (Option String × TeamState)) (courts : List CourtState) :
    List (Option String × TeamState) × List CourtState :=
  completed.foldl
    (fun acc c =>
      let courts2 := paintCourt c.courtId (c.actualEndTime + courtSetupTime * 60000) acc.2
      let restEnd := c.actualEndTime + restTime * 60000
      let teams2 := paintTeam c.team1Id restEnd currentTime acc.1
      let teams3 := paintTeam c.team2Id restEnd currentTime teams2
      (teams3, courts2))
    (teams, courts)

/-- Lines 777-792: seed the reschedule queue with every pending match whose
entire dependency set lies in the completed set, clearing those sets. -/
def seedQueue (completedIds : List String) (tasks : List (String × MatchTask)) :
    List (String × MatchTask) × List QItem :=
  tasks.foldl
    (fun acc kt =>
      if kt.2.remainingDependencies.all (fun d => decide (d ∈ completedIds)) then
        (mapSet kt.1 { kt.2 with remainingDependencies := [] } acc.1,
         enqueue acc.2 ⟨kt.2.mtch.id, kt.2.mtch.round⟩)
      else acc)
    (tasks, [])

/-- The `new Set(config.completedMatches.map(m => m.matchId))` of line 697. -/
def rsCompletedIds (config : RescheduleConfig) : List String :=
  setOfList (config.completedMatches.map (fun c => c.matchId))

/-- Line 702: the matches not marked completed. -/
def rsPending (matchList : List MatchRec) (config : RescheduleConfig) : List MatchRec :=
  matchList.filter (fun m => decide (¬ m.id ∈ rsCompletedIds config))

/-- Lines 708-717: the schedule pre-seeded with completed matches. -/
def rsSchedule0 (matchList : List MatchRec) (config : RescheduleConfig) : List ScheduledMatch :=
  config.completedMatches.map (fun c =>
    ⟨c.matchId, c.courtId, c.actualStartTime, c.actualEndTime,
     (((matchList.find? (fun m => decide (m.id = c.matchId))).map (fun m => m.round)).getD 0)⟩)

/-- The loop context of `rescheduleMatches`: current time as hard floor and
as seed time for lazily created team states. -/
def rsCtx (matchList : List MatchRec) (config : RescheduleConfig) : LoopCtx :=
  ⟨config.restTime, config.courtSetupTime.getD 0, some config.currentTime, config.currentTime,
   buildDependents (rsPending matchList config)⟩

/-- The initial simulation state of `rescheduleMatches` (lines 701-796). -/
def rsInit (matchList : List MatchRec) (courts : List Court) (config : RescheduleConfig) :
    LoopState :=
  let painted := paintCompleted config.restTime (config.courtSetupTime.getD 0) config.currentTime
    config.completedMatches []
    (courts.map (fun c => ⟨c.id, config.startTime.getD config.currentTime, none⟩))
  let seeded := seedQueue (rsCompletedIds config) (buildTasks (rsPending matchList config))
  ⟨config.currentTime, rsSchedule0 matchList config, painted.1, painted.2, seeded.1, seeded.2, []⟩

def rescheduleMatches (matchList : List MatchRec) (courts : List Court)
    (config : RescheduleConfig) (fuel : Nat) : Except SchedError ScheduleResult :=
  if matchList = [] then .error .noMatches
  else if courts = [] then .error .noCourts
  else
    match runLoop (rsCtx matchList config) fuel (rsInit matchList courts config) with
    | .error err => .error err
    | .ok stf =>
      if (stf.schedule.filter (fun s => decide (¬ s.matchId ∈ rsCompletedIds config))).length ≠
          (rsPending matchList config).length then
        .error (.incomplete
          (stf.schedule.filter (fun s => decide (¬ s.matchId ∈ rsCompletedIds config))).length
          (rsPending matchList config).length)
      else
        .ok ⟨sortByStart (stf.schedule.filter (fun s => decide (¬ s.matchId ∈ rsCompletedIds config))),
             ⟨(stf.schedule.filter (fun s => decide (¬ s.matchId ∈ rsCompletedIds config))).length,
              (scheduleEndTime config.currentTime stf.schedule -
                config.startTime.getD config.currentTime) / 60000,
              (((stf.schedule.filter (fun s => decide (¬ s.matchId ∈ rsCompletedIds config))).map
                  (fun s => s.courtId)).dedup).length,
              scheduleEndTime config.currentTime stf.schedule⟩⟩

/-! ### `validateSchedule` (lines 557-649) -/

inductive ValidationError where
  | doubleBooking (teamId matchId otherId : String)
  | insufficientRest (teamId prevId currId : String)
  | dependencyNotScheduled (matchId depId : String)
  | startsBeforeDependency (matchId depId : String)
deriving DecidableEq, Repr

/-- One element of a `teamOccupancy` bucket (lines 566, 594-598);
the source's `end` field is `endT` (`end` is reserved). -/
structure OccEntry where
  start : Int
  endT : Int
  matchId : String
deriving DecidableEq, Repr

structure ValidationReport where
  valid : Bool
  errors : List ValidationError
deriving DecidableEq, Repr

/-- The three-clause interval test of lines 582-586, on two occupancy
entries (`later` plays the role of the `scheduled` match under test). -/
def overlapOcc (later earlier : OccEntry) : Bool :=
  decide ((later.start ≥ earlier.start ∧ later.start < earlier.endT) ∨
    (later.endT > earlier.start ∧ later.endT ≤ earlier.endT) ∨
    (later.start ≤ earlier.start ∧ later.endT ≥ earlier.endT))

/-- Lines 594-598: the occupancy record pushed for a scheduled match. -/
def toOcc (s : ScheduledMatch) : OccEntry := ⟨s.startTime, s.endTime, s.matchId⟩

/-- The interval test as the source applies it: `scheduled` against a
previously recorded entry. -/
def overlapCond (s : ScheduledMatch) (o : OccEntry) : Bool := overlapOcc (toOcc s) o

/-- Lines 581-592: one error per already-recorded interval that overlaps. -/
def overlapErrors (teamId : String) (s : ScheduledMatch) : List OccEntry → List ValidationError
  | [] => []
  | o :: rest =>
    (if overlapCond s o then [.doubleBooking teamId s.matchId o.matchId] else [])
      ++ overlapErrors teamId s rest

/-- The inner `for (const teamId of teamIds)` of lines 573-599: per team,
report overlaps against the team's current occupancy, then push the entry. -/
def occStep (entry : OccEntry) (s : ScheduledMatch) :
    List String → List (String × List OccEntry) →
    List (String × List OccEntry) × List ValidationError
  | [], occ => (occ, [])
  | tid :: rest, occ =>
    ((occStep entry s rest (mapEnsureThen tid [] (fun l => l ++ [entry]) occ)).1,
     overlapErrors tid s ((mapLookup occ tid).getD []) ++
       (occStep entry s rest (mapEnsureThen tid [] (fun l => l ++ [entry]) occ)).2)

/-- Check 1 (lines 565-600): walk the schedule, recording team occupancy and
reporting overlaps against previously recorded intervals. -/
def check1Go (mm : List (String × MatchRec)) :
    List ScheduledMatch → List (String × List OccEntry) →
    List (String × List OccEntry) × List ValidationError
  | [], occ => (occ, [])
  | s :: rest, occ =>
    match mapLookup mm s.matchId with
    | none => check1Go mm rest occ
    | some m =>
      ((check1Go mm rest (occStep (toOcc s) s (getTeamIds m) occ).1).1,
       (occStep (toOcc s) s (getTeamIds m) occ).2 ++
         (check1Go mm rest (occStep (toOcc s) s (getTeamIds m) occ).1).2)

/-- Check 2 inner loop (lines 606-618). The source compares
`(curr.start - prev.end) / 60000 < config.restTime` with exact (floating)
division; the equivalent product form avoids rationals. -/
def restErrors (restTime : Int) (teamId : String) : List OccEntry → List ValidationError
  | [] => []
  | [_] => []
  | p :: c :: rest =>
    (if c.start - p.endT < restTime * 60000 then [.insufficientRest teamId p.matchId c.matchId] else [])
      ++ restErrors restTime teamId (c :: rest)

def occLe (a b : OccEntry) : Bool := decide (a.start ≤ b.start)

/-- Check 2 (lines 602-619): per team, sort occupancy by start and verify the
rest gap of each consecutive pair. -/
def check2 (restTime : Int) (occMap : List (String × List OccEntry)) : List ValidationError :=
  occMap.foldl (fun acc kv => acc ++ restErrors restTime kv.1 (sortBy occLe kv.2)) []

/-- Check 3 inner loop (lines 628-642). -/
def depErrors (sm : List (String × ScheduledMatch)) (mId : String) (s : ScheduledMatch) :
    List String → List ValidationError
  | [] => []
  | depId :: rest =>
    match mapLookup sm depId with
    | none => .dependencyNotScheduled mId depId :: depErrors sm mId s rest
    | some depS =>
      (if s.startTime < depS.endTime then [.startsBeforeDependency mId depId] else [])
        ++ depErrors sm mId s rest

/-- Check 3 (lines 621-643): every dependency of every scheduled match must
itself be scheduled, and end no later than the dependent starts. -/
def check3 (sm : List (String × ScheduledMatch)) (matchList : List MatchRec) : List ValidationError :=
  matchList.foldl
    (fun acc m =>
      match mapLookup sm m.id with
      | none => acc
      | some s => acc ++ depErrors sm m.id s m.dependencies)
    []

/-- Line 563: `new Map(matches.map(m => [m.id, m]))`. -/
def valMatchMap (matchList : List MatchRec) : List (String × MatchRec) :=
  matchList.foldl (fun acc m => mapSet m.id m acc) []

/-- Line 622: `new Map(schedule.map(s => [s.matchId, s]))`. -/
def valScheduleMap (schedule : List ScheduledMatch) : List (String × ScheduledMatch) :=
  schedule.foldl (fun acc s => mapSet s.matchId s acc) []

/-- The full error list accumulated by `validateSchedule`. -/
def validationErrors (schedule : List ScheduledMatch) (matchList : List MatchRec)
    (config : SchedulerConfig) : List ValidationError :=
  (check1Go (valMatchMap matchList) schedule []).2 ++
    check2 config.restTime (check1Go (valMatchMap matchList) schedule []).1 ++
    check3 (valScheduleMap schedule) matchList

/-- `validateSchedule` (lines 557-649). -/
def validateSchedule (schedule : List ScheduledMatch) (matchList : List MatchRec)
    (config : SchedulerConfig) : ValidationReport :=
  ⟨(validationErrors schedule matchList config).isEmpty,
   validationErrors schedule matchList config⟩

/-! ### Generic lemmas: sorting, map and set model -/

theorem insertLe_perm {α : Type} (le : α → α → Bool) (x : α) (l : List α) :
    (insertLe le x l).Perm (x :: l) := by
  induction l with
  | nil => simp [insertLe]
  | cons y ys ih =>
    simp only [insertLe]
    split
    · exact List.Perm.refl _
    · exact (ih.cons y).trans (List.Perm.swap x y ys)

theorem sortBy_perm {α : Type} (le : α → α → Bool) (l : List α) :
    (sortBy le l).Perm l := by
  induction l with
  | nil => simp [sortBy]
  | cons x xs ih => exact (insertLe_perm le x (sortBy le xs)).trans (ih.cons x)

theorem mem_sortBy {α : Type} {le : α → α → Bool} {l : List α} {a : α} :
    a ∈ sortBy le l ↔ a ∈ l :=
  (sortBy_perm le l).mem_iff

theorem length_sortBy {α : Type} (le : α → α → Bool) (l : List α) :
    (sortBy le l).length = l.length :=
  (sortBy_perm le l).length_eq

theorem insertLe_pairwise {α : Type} {le : α → α → Bool}
    (htrans : ∀ a b c, le a b = true → le b c = true → le a c = true)
    (htot : ∀ a b, le a b = true ∨ le b a = true)
    {x : α} {l : List α} (h : l.Pairwise (fun a b => le a b = true)) :
    (insertLe le x l).Pairwise (fun a b => le a b = true) := by
  induction l with
  | nil => simp [insertLe]
  | cons y ys ih =>
    rcases List.pairwise_cons.mp h with ⟨hy, hys⟩
    simp only [insertLe]
    split
    · rename_i hxy
      refine List.pairwise_cons.mpr ⟨?_, h⟩
      intro z hz
      rcases List.mem_cons.mp hz with rfl | hz
      · exact hxy
      · exact htrans _ _ _ hxy (hy z hz)
    · rename_i hxy
      refine List.pairwise_cons.mpr ⟨?_, ih hys⟩
      intro z hz
      rcases List.mem_cons.mp ((insertLe_perm le x ys).mem_iff.mp hz) with rfl | hz
      · rcases htot z y with h1 | h1
        · exact absurd h1 hxy
        · exact h1
      · exact hy z hz

theorem sortBy_pairwise {α : Type} {le : α → α → Bool}
    (htrans : ∀ a b c, le a b = true → le b c = true → le a c = true)
    (htot : ∀ a b, le a b = true ∨ le b a = true) (l : List α) :
    (sortBy le l).Pairwise (fun a b => le a b = true) := by
  induction l with
  | nil => simp [sortBy]
  | cons x xs ih => exact insertLe_pairwise htrans htot ih

theorem mapLookup_mapSet {κ β : Type} [DecidableEq κ] (key : κ) (val : β)
    (l : List (κ × β)) (k2 : κ) :
    mapLookup (mapSet key val l) k2 = if key = k2 then some val else mapLookup l k2 := by
  induction l with
  | nil => simp [mapSet, mapLookup]
  | cons kv rest ih =>
    obtain ⟨k, v⟩ := kv
    by_cases hk : k = key
    · subst hk
      by_cases h2 : k = k2
      · subst h2; simp [mapSet, mapLookup]
      · simp [mapSet, mapLookup, h2]
    · by_cases h2 : k = k2
      · subst h2
        have hne : key ≠ k := fun h => hk h.symm
        simp [mapSet, mapLookup, hk, hne]
      · simp [mapSet, mapLookup, hk, h2, ih]

theorem mapLookup_mapEnsureThen {κ β : Type} [DecidableEq κ] (key : κ) (dflt : β)
    (f : β → β) (l : List (κ × β)) (k2 : κ) :
    mapLookup (mapEnsureThen key dflt f l) k2 =
      if key = k2 then some (f ((mapLookup l key).getD dflt)) else mapLookup l k2 := by
  induction l with
  | nil =>
    by_cases h : key = k2 <;> simp [mapEnsureThen, mapLookup, h]
  | cons kv rest ih =>
    obtain ⟨k, v⟩ := kv
    by_cases hk : k = key
    · subst hk
      by_cases h2 : k = k2
      · subst h2; simp [mapEnsureThen, mapLookup]
      · simp [mapEnsureThen, mapLookup, h2]
    · by_cases h2 : k = k2
      · subst h2
        have hne : key ≠ k := fun h => hk h.symm
        simp [mapEnsureThen, mapLookup, hk, hne]
      · simp [mapEnsureThen, mapLookup, hk, h2, ih]

theorem mem_setAdd {κ : Type} [DecidableEq κ] {l : List κ} {x a : κ} :
    a ∈ setAdd l x ↔ a ∈ l ∨ a = x := by
  simp only [setAdd]
  split
  · rename_i h
    constructor
    · exact fun h2 => Or.inl h2
    · rintro (h2 | rfl)
      · exact h2
      · exact h
  · simp

theorem mem_foldl_setAdd {κ : Type} [DecidableEq κ] (l : List κ) (acc : List κ) (a : κ) :
    a ∈ l.foldl setAdd acc ↔ a ∈ acc ∨ a ∈ l := by
  induction l generalizing acc with
  | nil => simp
  | cons x xs ih =>
    simp only [List.foldl_cons, ih, mem_setAdd, List.mem_cons]
    tauto

theorem mem_setOfList {κ : Type} [DecidableEq κ] {l : List κ} {a : κ} :
    a ∈ setOfList l ↔ a ∈ l := by
  simp [setOfList, mem_foldl_setAdd]

/-! ### Order properties of the comparators -/

theorem charListLe_refl (l : List Char) : charListLe l l = true := by
  induction l with
  | nil => rfl
  | cons a as ih => simp [charListLe, ih]

theorem charListLe_total (a b : List Char) : charListLe a b = true ∨ charListLe b a = true := by
  induction a generalizing b with
  | nil => left; rfl
  | cons x xs ih =>
    cases b with
    | nil => right; rfl
    | cons y ys =>
      rcases Nat.lt_trichotomy x.toNat y.toNat with h | h | h
      · left; simp [charListLe, h]
      · rcases ih ys with h2 | h2
        · left; simp [charListLe, h, h2]
        · right; simp [charListLe, h.symm, h2]
      · right; simp [charListLe, h]

theorem charListLe_trans (a b c : List Char) (h1 : charListLe a b = true)
    (h2 : charListLe b c = true) : charListLe a c = true := by
  induction a generalizing b c with
  | nil => rfl
  | cons x xs ih =>
    cases b with
    | nil => simp [charListLe] at h1
    | cons y ys =>
      cases c with
      | nil => simp [charListLe] at h2
      | cons z zs =>
        simp only [charListLe, Bool.or_eq_true, Bool.and_eq_true, decide_eq_true_eq] at h1 h2 ⊢
        rcases h1 with h1 | ⟨h1e, h1r⟩
        · rcases h2 with h2 | ⟨h2e, h2r⟩
          · exact Or.inl (h1.trans h2)
          · exact Or.inl (h2e ▸ h1)
        · rcases h2 with h2 | ⟨h2e, h2r⟩
          · exact Or.inl (h1e ▸ h2)
          · exact Or.inr ⟨h1e.trans h2e, ih ys zs h1r h2r⟩

theorem strLe_refl (a : String) : strLe a a = true := charListLe_refl a.data

theorem strLe_total (a b : String) : strLe a b = true ∨ strLe b a = true :=
  charListLe_total a.data b.data

theorem strLe_trans (a b c : String) (h1 : strLe a b = true) (h2 : strLe b c = true) :
    strLe a c = true :=
  charListLe_trans a.data b.data c.data h1 h2

theorem qLe_refl (a : QItem) : qLe a a = true := by
  simp [qLe, strLe_refl]

theorem qLe_total (a b : QItem) : qLe a b = true ∨ qLe b a = true := by
  by_cases h : a.round = b.round
  · simp only [qLe, if_pos h, if_pos h.symm]
    exact strLe_total a.id b.id
  · simp only [qLe, if_neg h, if_neg (Ne.symm h), decide_eq_true_eq]
    omega

theorem qLe_trans (a b c : QItem) (h1 : qLe a b = true) (h2 : qLe b c = true) :
    qLe a c = true := by
  unfold qLe at h1 h2 ⊢
  by_cases hab : a.round = b.round
  · by_cases hbc : b.round = c.round
    · rw [if_pos hab] at h1
      rw [if_pos hbc] at h2
      rw [if_pos (hab.trans hbc)]
      exact strLe_trans _ _ _ h1 h2
    · rw [if_pos hab] at h1
      rw [if_neg hbc] at h2
      have h2b : b.round < c.round := of_decide_eq_true h2
      have hac : ¬ a.round = c.round := by omega
      rw [if_neg hac]
      exact decide_eq_true (by omega)
  · by_cases hbc : b.round = c.round
    · rw [if_neg hab] at h1
      have h1b : a.round < b.round := of_decide_eq_true h1
      have hac : ¬ a.round = c.round := by omega
      rw [if_neg hac]
      exact decide_eq_true (by omega)
    · rw [if_neg hab] at h1
      rw [if_neg hbc] at h2
      have h1b : a.round < b.round := of_decide_eq_true h1
      have h2b : b.round < c.round := of_decide_eq_true h2
      have hac : ¬ a.round = c.round := by omega
      rw [if_neg hac]
      exact decide_eq_true (by omega)

/-! ### Elimination lemmas for successful runs -/

theorem scheduleMatches_ok_elim {matchList : List MatchRec} {courts : List Court}
    {config : SchedulerConfig} {now : Int} {fuel : Nat} {r : ScheduleResult}
    (h : scheduleMatches matchList courts config now fuel = .ok r) :
    ∃ stf : LoopState,
      runLoop (smCtx matchList config now) fuel (smInit matchList courts config now) = .ok stf ∧
      stf.schedule.length = matchList.length ∧
      r.schedule = sortByStart stf.schedule ∧
      r.summary.totalMatches = stf.schedule.length := by
  unfold scheduleMatches at h
  split at h
  · exact absurd h (by simp)
  split at h
  · exact absurd h (by simp)
  split at h
  · exact absurd h (by simp)
  rename_i stf hrun
  split at h
  · exact absurd h (by simp)
  rename_i hlen
  injection h with h2
  subst h2
  exact ⟨stf, hrun, by omega, rfl, rfl⟩

theorem rescheduleMatches_ok_elim {matchList : List MatchRec} {courts : List Court}
    {config : RescheduleConfig} {fuel : Nat} {r : ScheduleResult}
    (h : rescheduleMatches matchList courts config fuel = .ok r) :
    ∃ stf : LoopState,
      runLoop (rsCtx matchList config) fuel (rsInit matchList courts config) = .ok stf ∧
      r.schedule = sortByStart
        (stf.schedule.filter (fun s => decide (¬ s.matchId ∈ rsCompletedIds config))) ∧
      (stf.schedule.filter (fun s => decide (¬ s.matchId ∈ rsCompletedIds config))).length =
        (rsPending matchList config).length := by
  unfold rescheduleMatches at h
  split at h
  · exact absurd h (by simp)
  split at h
  · exact absurd h (by simp)
  split at h
  · exact absurd h (by simp)
  rename_i stf hrun
  split at h
  · exact absurd h (by simp)
  rename_i hlen
  injection h with h2
  subst h2
  exact ⟨stf, hrun, rfl, by omega⟩

instance {ε α : Type} [DecidableEq ε] [DecidableEq α] : DecidableEq (Except ε α) := fun a b =>
  match a, b with
  | .error e1, .error e2 =>
    if h : e1 = e2 then isTrue (by rw [h]) else isFalse (fun hc => h (by injection hc))
  | .error e1, .ok v2 => isFalse (fun hc => by injection hc)
  | .ok v1, .error e2 => isFalse (fun hc => by injection hc)
  | .ok v1, .ok v2 =>
    if h : v1 = v2 then isTrue (by rw [h]) else isFalse (fun hc => h (by injection hc))

/-! ### Example fixtures used by witnesses and counterexamples -/

def exM1 : MatchRec := ⟨"M1", "A", "B", 1, 30, []⟩

def exM2 : MatchRec := ⟨"M2", "C", "D", 1, 30, []⟩

def exM3 : MatchRec := ⟨"M3", "WM1", "WM2", 2, 30, ["M1", "M2"]⟩

/-- Scenario F: a match whose dependency identity matches no input match. -/
def exDangling : MatchRec := ⟨"M2", "C", "D", 2, 30, ["MX"]⟩

def exCourts : List Court := [⟨"C1"⟩, ⟨"C2"⟩]

def exCfg : SchedulerConfig := ⟨15, some 0, none⟩

def exRsCfg : RescheduleConfig :=
  ⟨15, some 0, none, 2820000,
   [⟨"M1", "C1", 0, 1980000, "A", "B"⟩, ⟨"M2", "C2", 0, 1500000, "C", "D"⟩]⟩

/-! ### C1: completeness of `scheduleMatches`, feasibility failure otherwise -/

/-- C1: whenever `scheduleMatches` returns, the schedule holds exactly one
entry per input match (and the summary count agrees); when not every match
can be placed — here a dependency on the nonexistent identity "MX" — the
terminal check raises the feasibility error carrying the placed/total
counts instead of returning a partial schedule or treating the orphan as a
root task. -/
theorem scheduleMatches_completeness :
    (∀ (matchList : List MatchRec) (courts : List Court) (config : SchedulerConfig)
        (now : Int) (fuel : Nat) (r : ScheduleResult),
        scheduleMatches matchList courts config now fuel = .ok r →
        r.schedule.length = matchList.length ∧ r.summary.totalMatches = matchList.length) ∧
      scheduleMatches [exM1, exDangling] exCourts exCfg 0 12 = .error (.incomplete 1 2) := by
  constructor
  · intro matchList courts config now fuel r h
    obtain ⟨stf, _, hlen, hsched, htm⟩ := scheduleMatches_ok_elim h
    constructor
    · rw [hsched]
      simp only [sortByStart, length_sortBy]
      exact hlen
    · omega
  · decide

/-- Witness for C1 at an input on which `scheduleMatches` succeeds. -/
theorem scheduleMatches_completeness_witness :
    (scheduleMatches [exM1, exM2] exCourts exCfg 0 12).map (fun r => r.schedule.length) =
      .ok 2 := by
  cases hEq : scheduleMatches [exM1, exM2] exCourts exCfg 0 12 with
  | error e =>
    have hok : (scheduleMatches [exM1, exM2] exCourts exCfg 0 12).isOk = true := by decide
    rw [hEq] at hok
    exact absurd hok (by simp [Except.isOk, Except.toBool])
  | ok r =>
    have hlen := (scheduleMatches_completeness.1 [exM1, exM2] exCourts exCfg 0 12 r hEq).1
    simp [Except.map, hlen]

/-! ### C6: reschedule returns exactly the pending matches -/

/-- C6: a successful `rescheduleMatches` returns no match whose identity is
in the completed list, and exactly one entry per pending input match. -/
theorem rescheduleMatches_pending_only :
    ∀ (matchList : List MatchRec) (courts : List Court) (config : RescheduleConfig)
      (fuel : Nat) (r : ScheduleResult),
      rescheduleMatches matchList courts config fuel = .ok r →
      (∀ s ∈ r.schedule, s.matchId ∉ config.completedMatches.map (fun c => c.matchId)) ∧
      r.schedule.length =
        (matchList.filter
          (fun m => decide (¬ m.id ∈ config.completedMatches.map (fun c => c.matchId)))).length := by
  intro matchList courts config fuel r h
  obtain ⟨stf, hrun, hsched, hlen⟩ := rescheduleMatches_ok_elim h
  constructor
  · intro s hs
    rw [hsched] at hs
    have hs2 := mem_sortBy.mp hs
    have hmem := List.mem_filter.mp hs2
    have hnot := of_decide_eq_true hmem.2
    intro hin
    exact hnot (by unfold rsCompletedIds; exact mem_setOfList.mpr hin)
  · rw [hsched]
    simp only [sortByStart, length_sortBy]
    rw [hlen]
    unfold rsPending rsCompletedIds
    have hcong : ∀ m ∈ matchList,
        (decide (¬ m.id ∈ setOfList (config.completedMatches.map (fun c => c.matchId)))) =
          decide (¬ m.id ∈ config.completedMatches.map (fun c => c.matchId)) := by
      intro m _
      simp [mem_setOfList]
    rw [List.filter_congr hcong]

/-- Witness for C6: two completed, one pending match; one entry returned. -/
theorem rescheduleMatches_pending_only_witness :
    (rescheduleMatches [exM1, exM2, exM3] exCourts exRsCfg 12).map
        (fun r => r.schedule.length) = .ok 1 := by
  cases hEq : rescheduleMatches [exM1, exM2, exM3] exCourts exRsCfg 12 with
  | error e =>
    have hok : (rescheduleMatches [exM1, exM2, exM3] exCourts exRsCfg 12).isOk = true := by decide
    rw [hEq] at hok
    exact absurd hok (by simp [Except.isOk, Except.toBool])
  | ok r =>
    have hlen := (rescheduleMatches_pending_only [exM1, exM2, exM3] exCourts exRsCfg 12 r hEq).2
    have hc : ([exM1, exM2, exM3].filter
        (fun m => decide (¬ m.id ∈ exRsCfg.completedMatches.map (fun c => c.matchId)))).length = 1 := by
      decide
    rw [hc] at hlen
    simp [Except.map, hlen]

/-! ### C10: result schedules are sorted by start time -/

theorem sortByStart_pairwise (l : List ScheduledMatch) :
    (sortByStart l).Pairwise (fun a b => a.startTime ≤ b.startTime) := by
  have hp := @sortBy_pairwise ScheduledMatch
    (fun a b : ScheduledMatch => decide (a.startTime ≤ b.startTime))
    (fun a b c h1 h2 => by
      rw [decide_eq_true_eq] at h1 h2 ⊢
      omega)
    (fun a b => by
      by_cases h : a.startTime ≤ b.startTime
      · exact Or.inl (decide_eq_true h)
      · exact Or.inr (decide_eq_true (by omega)))
    l
  exact hp.imp (fun h => of_decide_eq_true h)

/-- C10: the schedule list returned by a successful `scheduleMatches` or
`rescheduleMatches` is sorted in ascending order of start time. -/
theorem scheduleResult_sorted_by_start :
    (∀ (matchList : List MatchRec) (courts : List Court) (config : SchedulerConfig)
        (now : Int) (fuel : Nat) (r : ScheduleResult),
        scheduleMatches matchList courts config now fuel = .ok r →
        r.schedule.Pairwise (fun a b => a.startTime ≤ b.startTime)) ∧
    (∀ (matchList : List MatchRec) (courts : List Court) (config : RescheduleConfig)
        (fuel : Nat) (r : ScheduleResult),
        rescheduleMatches matchList courts config fuel = .ok r →
        r.schedule.Pairwise (fun a b => a.startTime ≤ b.startTime)) := by
  constructor
  · intro matchList courts config now fuel r h
    obtain ⟨stf, _, _, hsched, _⟩ := scheduleMatches_ok_elim h
    rw [hsched]
    exact sortByStart_pairwise stf.schedule
  · intro matchList courts config fuel r h
    obtain ⟨stf, _, hsched, _⟩ := rescheduleMatches_ok_elim h
    rw [hsched]
    exact sortByStart_pairwise _

/-- Witness for C10 on a successful schedule run. -/
theorem scheduleResult_sorted_by_start_witness :
    (scheduleMatches [exM1, exM2, exM3] exCourts exCfg 0 12).map
        (fun r => decide (r.schedule.Pairwise (fun a b => a.startTime ≤ b.startTime))) =
      .ok true := by
  cases hEq : scheduleMatches [exM1, exM2, exM3] exCourts exCfg 0 12 with
  | error e =>
    have hok : (scheduleMatches [exM1, exM2, exM3] exCourts exCfg 0 12).isOk = true := by decide
    rw [hEq] at hok
    exact absurd hok (by simp [Except.isOk, Except.toBool])
  | ok r =>
    have hpw := scheduleResult_sorted_by_start.1 [exM1, exM2, exM3] exCourts exCfg 0 12 r hEq
    simp [Except.map, decide_eq_true hpw]

/-! ### C9: determinism -/

/-- Counterexample to C9 as stated: with `startTime` absent the function
reads the wall clock (`new Date()`, line 338), so two runs on identical
`(matches, courts, config)` inputs can return different results. -/
theorem scheduleMatches_depends_on_clock :
    scheduleMatches [exM1] [⟨"C1"⟩] ⟨0, none, none⟩ 0 10 ≠
      scheduleMatches [exM1] [⟨"C1"⟩] ⟨0, none, none⟩ 60000 10 := by decide

/-- C9 (amended): whenever `config.startTime` is supplied, `scheduleMatches`
never reads the clock, so identical `(matches, courts, config)` inputs give
identical results across runs. -/
theorem scheduleMatches_deterministic_given_startTime :
    ∀ (matchList : List MatchRec) (courts : List Court) (config : SchedulerConfig)
      (now1 now2 : Int) (fuel : Nat) (t : Int),
      config.startTime = some t →
      scheduleMatches matchList courts config now1 fuel =
        scheduleMatches matchList courts config now2 fuel := by
  intro matchList courts config now1 now2 fuel t h
  have hstart : smStart config now1 = smStart config now2 := by
    simp [smStart, h]
  have hctx : smCtx matchList config now1 = smCtx matchList config now2 := by
    unfold smCtx
    rw [hstart]
  have hinit : smInit matchList courts config now1 = smInit matchList courts config now2 := by
    unfold smInit
    rw [hstart]
  unfold scheduleMatches
  rw [hctx, hinit, hstart]

/-- Witness for amended C9 at a config with an explicit start time. -/
theorem scheduleMatches_deterministic_witness :
    scheduleMatches [exM1] [⟨"C1"⟩] exCfg 0 10 = scheduleMatches [exM1] [⟨"C1"⟩] exCfg 999 10 :=
  scheduleMatches_deterministic_given_startTime [exM1] [⟨"C1"⟩] exCfg 0 999 10 0 rfl

/-! ### C7: the ready queue is kept ordered by (round, identity) -/

theorem qLe_iff (a b : QItem) :
    qLe a b = true ↔ (a.round < b.round ∨ (a.round = b.round ∧ strLe a.id b.id = true)) := by
  unfold qLe
  by_cases h : a.round = b.round
  · rw [if_pos h]
    constructor
    · exact fun h2 => Or.inr ⟨h, h2⟩
    · rintro (h2 | ⟨_, h2⟩)
      · omega
      · exact h2
  · rw [if_neg h]
    constructor
    · intro h2
      exact Or.inl (of_decide_eq_true h2)
    · rintro (h2 | ⟨h2, _⟩)
      · exact decide_eq_true h2
      · exact absurd h2 h

/-- C7: after every insertion the ready queue is ordered by round ascending
and, for equal rounds, by match identity lexicographically ascending; in
particular the head is a minimum of that order. -/
theorem matchQueue_enqueue_ordered :
    ∀ (queue : List QItem) (item : QItem),
      (enqueue queue item).Pairwise
        (fun a b => a.round < b.round ∨ (a.round = b.round ∧ strLe a.id b.id = true)) ∧
      ∀ x ∈ enqueue queue item,
        ((enqueue queue item).headD x).round < x.round ∨
          (((enqueue queue item).headD x).round = x.round ∧
            strLe ((enqueue queue item).headD x).id x.id = true) := by
  intro queue item
  have hpw := sortBy_pairwise qLe_trans qLe_total (queue ++ [item])
  constructor
  · exact hpw.imp (fun h => (qLe_iff _ _).mp h)
  · intro x hx
    unfold enqueue at hx ⊢
    match hE : sortBy qLe (queue ++ [item]) with
    | [] =>
      rw [hE] at hx
      exact absurd hx (List.not_mem_nil x)
    | q :: rest =>
      rw [hE] at hx
      simp only [List.headD_cons]
      rcases List.mem_cons.mp hx with rfl | hx2
      · exact Or.inr ⟨rfl, strLe_refl _⟩
      · have hq : qLe q x = true := by
          rw [hE] at hpw
          exact (List.pairwise_cons.mp hpw).1 x hx2
        exact (qLe_iff _ _).mp hq

/-- Witness for C7: a concrete insertion; the head beats a queued element. -/
theorem matchQueue_enqueue_ordered_witness :
    ((enqueue [⟨"M9", 2⟩, ⟨"M10", 1⟩] ⟨"M2", 1⟩).headD ⟨"M9", 2⟩).round < (2 : Int) ∨
      (((enqueue [⟨"M9", 2⟩, ⟨"M10", 1⟩] ⟨"M2", 1⟩).headD ⟨"M9", 2⟩).round = (2 : Int) ∧
        strLe ((enqueue [⟨"M9", 2⟩, ⟨"M10", 1⟩] ⟨"M2", 1⟩).headD ⟨"M9", 2⟩).id "M9" = true) :=
  (matchQueue_enqueue_ordered [⟨"M9", 2⟩, ⟨"M10", 1⟩] ⟨"M2", 1⟩).2 ⟨"M9", 2⟩ (by decide)

/-! ### C2: the reschedule no-past invariant -/

theorem processEvent_schedule (ctx : LoopCtx) (e : Event) (st : LoopState) :
    (processEvent ctx e st).schedule = st.schedule := rfl

theorem flushAux_schedule (ctx : LoopCtx) (es : List Event) (st : LoopState) :
    (flushAux ctx es st).schedule = st.schedule := by
  induction es generalizing st with
  | nil => rfl
  | cons e rest ih =>
    simp only [flushAux]
    split
    · rw [ih, processEvent_schedule]
    · rfl

theorem flushEvents_schedule (ctx : LoopCtx) (st : LoopState) :
    (flushEvents ctx st).schedule = st.schedule :=
  flushAux_schedule ctx st.events st

theorem placeResult_schedule (ctx : LoopCtx) (st : LoopState) (task : MatchTask)
    (ci : Nat × Int) :
    (placeResult ctx st task ci).schedule = st.schedule ++
      [⟨task.mtch.id, courtIdAt st.courtStates ci.1, placeStart ctx st task ci,
        placeStart ctx st task ci + task.mtch.duration * 60000, task.mtch.round⟩] := rfl

theorem tryPlace_eq_some {ctx : LoopCtx} {st : LoopState} {q : QItem} {st2 : LoopState}
    (h : tryPlace ctx st q = some st2) :
    ∃ (task : MatchTask) (ci : Nat × Int),
      mapLookup st.tasks q.id = some task ∧
      areTeamsAvailable task.mtch st.time st.teamStates = true ∧
      findAvailableCourt st.time st.courtStates = some ci ∧
      placeStart ctx st task ci ≤ st.time ∧
      st2 = placeResult ctx st task ci := by
  unfold tryPlace at h
  split at h
  · exact absurd h (by simp)
  rename_i task htask
  split at h
  · rename_i hteams
    split at h
    · exact absurd h (by simp)
    rename_i ci hfac
    split at h
    · exact absurd h (by simp)
    rename_i hlate
    injection h with h2
    exact ⟨task, ci, htask, hteams, hfac, by omega, h2.symm⟩
  · exact absurd h (by simp)

theorem placePass_eq_some {ctx : LoopCtx} {l : List QItem} {st st2 : LoopState}
    (h : placePass ctx l st = some st2) :
    ∃ q ∈ l, tryPlace ctx st q = some st2 := by
  induction l with
  | nil => exact absurd h (by simp [placePass])
  | cons q rest ih =>
    simp only [placePass] at h
    split at h
    · rename_i st3 htp
      injection h with h2
      subst h2
      exact ⟨q, List.mem_cons_self _ _, htp⟩
    · obtain ⟨q2, hq2, htp⟩ := ih h
      exact ⟨q2, List.mem_cons_of_mem _ hq2, htp⟩

theorem placeStart_floor {ctx : LoopCtx} {f : Int} (h : ctx.floorTime = some f)
    (st : LoopState) (task : MatchTask) (ci : Nat × Int) :
    f ≤ placeStart ctx st task ci := by
  unfold placeStart
  rw [h]
  exact le_max_right _ _

/-- Every schedule entry not in `ids` starts at or after `f`. -/
def NoPast (ids : List String) (f : Int) (st : LoopState) : Prop :=
  ∀ s ∈ st.schedule, s.matchId ∉ ids → f ≤ s.startTime

theorem noPast_flush {ctx : LoopCtx} {ids : List String} {f : Int} {st : LoopState}
    (hn : NoPast ids f st) : NoPast ids f (flushEvents ctx st) := by
  intro s hs
  rw [flushEvents_schedule] at hs
  exact hn s hs

theorem noPast_timeSet {ids : List String} {f t : Int} {st : LoopState}
    (hn : NoPast ids f st) : NoPast ids f { st with time := t } := by
  intro s hs
  exact hn s hs

theorem noPast_tryPlace {ctx : LoopCtx} {st st2 : LoopState} {q : QItem}
    {ids : List String} {f : Int} (hflo : ctx.floorTime = some f)
    (h : tryPlace ctx st q = some st2) (hn : NoPast ids f st) : NoPast ids f st2 := by
  obtain ⟨task, ci, _, _, _, _, rfl⟩ := tryPlace_eq_some h
  intro s hs hid
  rw [placeResult_schedule] at hs
  rcases List.mem_append.mp hs with hs2 | hs2
  · exact hn s hs2 hid
  · rcases List.mem_singleton.mp hs2 with rfl
    exact placeStart_floor hflo st task ci

theorem noPast_runLoop {ctx : LoopCtx} {ids : List String} {f : Int}
    (hflo : ctx.floorTime = some f) :
    ∀ (fuel : Nat) (st stf : LoopState), runLoop ctx fuel st = .ok stf →
      NoPast ids f st → NoPast ids f stf := by
  intro fuel
  induction fuel with
  | zero =>
    intro st stf h hn
    exact absurd h (by simp [runLoop])
  | succ n ih =>
    intro st stf h hn
    rw [runLoop] at h
    split at h
    · injection h with h2
      subst h2
      exact hn
    · split at h
      · rename_i st2 hpp
        obtain ⟨q, _, htp⟩ := placePass_eq_some hpp
        exact ih _ _ h (noPast_tryPlace hflo htp (noPast_flush hn))
      · split at h
        · exact ih _ _ h (noPast_timeSet (noPast_flush hn))
        · split at h
          · injection h with h2
            subst h2
            exact noPast_flush hn
          · split at h
            · exact ih _ _ h (noPast_timeSet (noPast_flush hn))
            · exact absurd h (by simp)

/-- C2: every match in a successful `rescheduleMatches` result starts at or
after the caller-supplied current time: placement floors each start at
`currentTime` and the returned entries are exactly the non-completed ones. -/
theorem rescheduleMatches_no_past :
    ∀ (matchList : List MatchRec) (courts : List Court) (config : RescheduleConfig)
      (fuel : Nat) (r : ScheduleResult),
      rescheduleMatches matchList courts config fuel = .ok r →
      ∀ s ∈ r.schedule, config.currentTime ≤ s.startTime := by
  intro matchList courts config fuel r h s hs
  obtain ⟨stf, hrun, hsched, _⟩ := rescheduleMatches_ok_elim h
  have hinit : NoPast (rsCompletedIds config) config.currentTime
      (rsInit matchList courts config) := by
    intro s2 hs2 hid
    exfalso
    apply hid
    have hre : (rsInit matchList courts config).schedule = rsSchedule0 matchList config := rfl
    rw [hre] at hs2
    unfold rsSchedule0 at hs2
    obtain ⟨c, hc, rfl⟩ := List.mem_map.mp hs2
    unfold rsCompletedIds
    exact mem_setOfList.mpr (List.mem_map.mpr ⟨c, hc, rfl⟩)
  have hfin := @noPast_runLoop (rsCtx matchList config) (rsCompletedIds config)
    config.currentTime rfl
    fuel _ _ hrun hinit
  rw [hsched] at hs
  have hmem := List.mem_filter.mp (mem_sortBy.mp hs)
  exact hfin s hmem.1 (of_decide_eq_true hmem.2)

/-- Witness for C2 on a concrete mid-tournament reschedule. -/
theorem rescheduleMatches_no_past_witness :
    (rescheduleMatches [exM1, exM2, exM3] exCourts exRsCfg 12).map
        (fun r => decide (∀ s ∈ r.schedule, exRsCfg.currentTime ≤ s.startTime)) = .ok true := by
  cases hEq : rescheduleMatches [exM1, exM2, exM3] exCourts exRsCfg 12 with
  | error e =>
    have hok : (rescheduleMatches [exM1, exM2, exM3] exCourts exRsCfg 12).isOk = true := by decide
    rw [hEq] at hok
    exact absurd hok (by simp [Except.isOk, Except.toBool])
  | ok r =>
    have hp := rescheduleMatches_no_past [exM1, exM2, exM3] exCourts exRsCfg 12 r hEq
    simp [Except.map, decide_eq_true hp]

/-! ### C8: declarative characterization of the validator -/

/-- Per-team occupancy that check 1 accumulates, described declaratively:
one entry per occurrence of `t` among the teams of each scheduled match
(in schedule order), skipping entries with no corresponding match. -/
def teamSched (mm : List (String × MatchRec)) (t : String) : List ScheduledMatch → List OccEntry
  | [] => []
  | s :: rest =>
    match mapLookup mm s.matchId with
    | none => teamSched mm t rest
    | some m =>
      (((getTeamIds m).filter (fun tid => decide (tid = t))).map (fun _ => toOcc s)) ++
        teamSched mm t rest

theorem overlapErrors_eq_nil (teamId : String) (s : ScheduledMatch) (l : List OccEntry) :
    overlapErrors teamId s l = [] ↔ ∀ o ∈ l, overlapCond s o = false := by
  induction l with
  | nil => simp [overlapErrors]
  | cons o rest ih =>
    simp only [overlapErrors]
    by_cases h : overlapCond s o = true
    · simp [h, List.forall_mem_cons]
    · have hf : overlapCond s o = false := by
        revert h
        cases overlapCond s o <;> simp
      rw [if_neg h, List.nil_append, ih]
      simp [hf, List.forall_mem_cons]

theorem occStep_bucket (entry : OccEntry) (s : ScheduledMatch) :
    ∀ (tids : List String) (occ : List (String × List OccEntry)) (t : String),
    (mapLookup (occStep entry s tids occ).1 t).getD [] =
      (mapLookup occ t).getD [] ++
        ((tids.filter (fun tid => decide (tid = t))).map (fun _ => entry)) := by
  intro tids
  induction tids with
  | nil => simp [occStep]
  | cons tid rest ih =>
    intro occ t
    simp only [occStep]
    rw [ih, mapLookup_mapEnsureThen]
    by_cases h : tid = t
    · subst h
      simp [List.filter_cons]
    · simp [h, List.filter_cons, Ne.symm h]

theorem mapLookup_eq_none_iff {κ β : Type} [DecidableEq κ] {l : List (κ × β)} {k : κ} :
    mapLookup l k = none ↔ k ∉ l.map Prod.fst := by
  induction l with
  | nil => simp [mapLookup]
  | cons kv rest ih =>
    obtain ⟨k2, v⟩ := kv
    by_cases h : k2 = k
    · subst h
      simp [mapLookup]
    · simp [mapLookup, h, ih, Ne.symm h]

theorem mapLookup_some_mem {κ β : Type} [DecidableEq κ] {l : List (κ × β)} {k : κ} {v : β}
    (h : mapLookup l k = some v) : (k, v) ∈ l := by
  induction l with
  | nil => exact absurd h (by simp [mapLookup])
  | cons kv rest ih =>
    obtain ⟨k2, v2⟩ := kv
    simp only [mapLookup] at h
    split at h
    · rename_i h2
      injection h with h3
      subst h2 h3
      exact List.mem_cons_self _ _
    · exact List.mem_cons_of_mem _ (ih h)

theorem mem_mapLookup {κ β : Type} [DecidableEq κ] {l : List (κ × β)} {k : κ} {v : β}
    (hnd : (l.map Prod.fst).Nodup) (h : (k, v) ∈ l) : mapLookup l k = some v := by
  induction l with
  | nil => exact absurd h (List.not_mem_nil _)
  | cons kv rest ih =>
    obtain ⟨k2, v2⟩ := kv
    simp only [List.map_cons, List.nodup_cons] at hnd
    rcases List.mem_cons.mp h with h2 | h2
    · injection h2 with h3 h4
      subst h3 h4
      simp [mapLookup]
    · have hk : k2 ≠ k := by
        intro hc
        subst hc
        exact hnd.1 (List.mem_map.mpr ⟨(k2, v), h2, rfl⟩)
      simp only [mapLookup, if_neg hk]
      exact ih hnd.2 h2

theorem keys_mapEnsureThen {κ β : Type} [DecidableEq κ] (key : κ) (dflt : β)
    (f : β → β) (l : List (κ × β)) :
    (mapEnsureThen key dflt f l).map Prod.fst =
      if key ∈ l.map Prod.fst then l.map Prod.fst else l.map Prod.fst ++ [key] := by
  induction l with
  | nil => simp [mapEnsureThen]
  | cons kv rest ih =>
    obtain ⟨k2, v⟩ := kv
    by_cases h : k2 = key
    · subst h
      simp [mapEnsureThen]
    · simp only [mapEnsureThen, if_neg h, List.map_cons, ih]
      by_cases h2 : key ∈ rest.map Prod.fst
      · simp [h2, Ne.symm h]
      · simp [h2, Ne.symm h]

theorem keys_nodup_mapEnsureThen {κ β : Type} [DecidableEq κ] (key : κ) (dflt : β)
    (f : β → β) {l : List (κ × β)} (hnd : (l.map Prod.fst).Nodup) :
    ((mapEnsureThen key dflt f l).map Prod.fst).Nodup := by
  rw [keys_mapEnsureThen]
  split
  · exact hnd
  · rename_i h
    simp [List.nodup_append, hnd, h]

theorem occStep_keys_nodup (entry : OccEntry) (s : ScheduledMatch) :
    ∀ (tids : List String) {occ : List (String × List OccEntry)},
    (occ.map Prod.fst).Nodup → (((occStep entry s tids occ).1).map Prod.fst).Nodup := by
  intro tids
  induction tids with
  | nil => exact fun h => h
  | cons tid rest ih =>
    intro occ hnd
    exact ih (keys_nodup_mapEnsureThen tid [] _ hnd)

theorem check1Go_bucket (mm : List (String × MatchRec)) :
    ∀ (sched : List ScheduledMatch) (occ : List (String × List OccEntry)) (t : String),
    (mapLookup (check1Go mm sched occ).1 t).getD [] =
      (mapLookup occ t).getD [] ++ teamSched mm t sched := by
  intro sched
  induction sched with
  | nil => simp [check1Go, teamSched]
  | cons s rest ih =>
    intro occ t
    cases hlk : mapLookup mm s.matchId with
    | none =>
      simp only [check1Go, teamSched, hlk]
      exact ih occ t
    | some m =>
      simp only [check1Go, teamSched, hlk]
      rw [ih, occStep_bucket, List.append_assoc]

theorem check1Go_keys_nodup (mm : List (String × MatchRec)) :
    ∀ (sched : List ScheduledMatch) {occ : List (String × List OccEntry)},
    (occ.map Prod.fst).Nodup → (((check1Go mm sched occ).1).map Prod.fst).Nodup := by
  intro sched
  induction sched with
  | nil => exact fun h => h
  | cons s rest ih =>
    intro occ hnd
    cases hlk : mapLookup mm s.matchId with
    | none =>
      simp only [check1Go, hlk]
      exact ih hnd
    | some m =>
      simp only [check1Go, hlk]
      exact ih (occStep_keys_nodup _ s _ hnd)

theorem occStep_errors_nil (s : ScheduledMatch) :
    ∀ (tids : List String) (occ : List (String × List OccEntry)),
    (occStep (toOcc s) s tids occ).2 = [] ↔
      ((∀ tid ∈ tids, ∀ o ∈ (mapLookup occ tid).getD [], overlapCond s o = false) ∧
        (¬ tids.Nodup → overlapCond s (toOcc s) = false)) := by
  intro tids
  induction tids with
  | nil => simp [occStep]
  | cons tid rest ih =>
    intro occ
    simp only [occStep]
    rw [List.append_eq_nil, overlapErrors_eq_nil, ih]
    constructor
    · rintro ⟨h1, h2, h3⟩
      refine ⟨?_, ?_⟩
      · intro tid2 htid2 o ho
        rcases List.mem_cons.mp htid2 with rfl | htid2
        · exact h1 o ho
        · refine h2 tid2 htid2 o ?_
          rw [mapLookup_mapEnsureThen]
          by_cases he : tid = tid2
          · subst he
            simp only [if_pos rfl, Option.getD_some]
            exact List.mem_append_left _ ho
          · rw [if_neg he]
            exact ho
      · intro hdup
        rw [List.nodup_cons] at hdup
        by_cases htin : tid ∈ rest
        · refine h2 tid htin (toOcc s) ?_
          rw [mapLookup_mapEnsureThen, if_pos rfl, Option.getD_some]
          exact List.mem_append_right _ (List.mem_singleton_self _)
        · exact h3 (fun hn => hdup ⟨htin, hn⟩)
    · rintro ⟨hall, hdup⟩
      refine ⟨fun o ho => hall tid (List.mem_cons_self _ _) o ho, ?_, ?_⟩
      · intro tid2 htid2 o ho
        rw [mapLookup_mapEnsureThen] at ho
        by_cases he : tid = tid2
        · subst he
          rw [if_pos rfl, Option.getD_some] at ho
          rcases List.mem_append.mp ho with ho2 | ho2
          · exact hall tid (List.mem_cons_self _ _) o ho2
          · rcases List.mem_singleton.mp ho2 with rfl
            refine hdup ?_
            rw [List.nodup_cons]
            intro hc
            exact hc.1 htid2
        · rw [if_neg he] at ho
          exact hall tid2 (List.mem_cons_of_mem _ htid2) o ho
      · intro hr
        refine hdup ?_
        rw [List.nodup_cons]
        intro hc
        exact hr hc.2

theorem pairwise_of_length_le_one {α : Type} {R : α → α → Prop} {l : List α}
    (h : l.length ≤ 1) : l.Pairwise R := by
  cases l with
  | nil => exact List.Pairwise.nil
  | cons a rest =>
    cases rest with
    | nil => simp
    | cons b rest2 => simp at h

theorem pairwise_map_const {α β : Type} {R : α → α → Prop} {a : α} (h : R a a) (l : List β) :
    (l.map (fun _ => a)).Pairwise R := by
  induction l with
  | nil => exact List.Pairwise.nil
  | cons x xs ih =>
    refine List.pairwise_cons.mpr ⟨?_, ih⟩
    intro b hb
    rcases List.mem_map.mp hb with ⟨_, _, rfl⟩
    exact h

theorem pairwise_map_const_extract {α β : Type} {R : α → α → Prop} {a : α} {l : List β}
    (hlen : 2 ≤ l.length) (h : (l.map (fun _ => a)).Pairwise R) : R a a := by
  cases l with
  | nil => simp at hlen
  | cons x xs =>
    cases xs with
    | nil => simp at hlen
    | cons y ys =>
      simp only [List.map_cons] at h
      exact (List.pairwise_cons.mp h).1 a (List.mem_cons_self _ _)

theorem filter_two_of_not_nodup {α : Type} [DecidableEq α] {l : List α} (h : ¬ l.Nodup) :
    ∃ a, 2 ≤ (l.filter (fun x => decide (x = a))).length := by
  induction l with
  | nil => exact absurd List.nodup_nil h
  | cons x xs ih =>
    rw [List.nodup_cons] at h
    by_cases hx : x ∈ xs
    · refine ⟨x, ?_⟩
      have h1 : x ∈ xs.filter (fun y => decide (y = x)) :=
        List.mem_filter.mpr ⟨hx, by simp⟩
      have h2 : 1 ≤ (xs.filter (fun y => decide (y = x))).length :=
        List.length_pos.mpr (fun hc => by rw [hc] at h1; exact List.not_mem_nil _ h1)
      simp only [List.filter_cons, decide_True, if_pos]
      simp only [List.length_cons]
      omega
    · have hxs : ¬ xs.Nodup := fun hn => h ⟨hx, hn⟩
      obtain ⟨a, ha⟩ := ih hxs
      refine ⟨a, ?_⟩
      rw [List.filter_cons]
      split
      · simp only [List.length_cons]
        omega
      · exact ha

theorem not_nodup_of_two_le_filter {α : Type} [DecidableEq α] {l : List α} {a : α}
    (h : 2 ≤ (l.filter (fun x => decide (x = a))).length) : ¬ l.Nodup := by
  intro hnd
  have hfil := hnd.filter (fun x => decide (x = a))
  have hmem : ∀ x ∈ l.filter (fun y => decide (y = a)), x = a := by
    intro x hx
    exact of_decide_eq_true (List.mem_filter.mp hx).2
  rcases hfl : l.filter (fun x => decide (x = a)) with _ | ⟨x, rest⟩
  · rw [hfl] at h
    simp at h
  · rcases rest with _ | ⟨y, rest2⟩
    · rw [hfl] at h
      simp at h
    · rw [hfl] at hfil hmem
      have hxy : x = y := by
        rw [hmem x (List.mem_cons_self _ _), hmem y (List.mem_cons_of_mem _ (List.mem_cons_self _ _))]
      rw [List.nodup_cons] at hfil
      exact hfil.1 (hxy ▸ List.mem_cons_self _ _)

theorem check1Go_errors_nil (mm : List (String × MatchRec)) :
    ∀ (sched : List ScheduledMatch) (occ : List (String × List OccEntry)),
    (check1Go mm sched occ).2 = [] ↔
      ∀ t : String,
        (∀ o ∈ (mapLookup occ t).getD [], ∀ n ∈ teamSched mm t sched, overlapOcc n o = false) ∧
        (teamSched mm t sched).Pairwise (fun earlier later => overlapOcc later earlier = false) := by
  intro sched
  induction sched with
  | nil => simp [check1Go, teamSched]
  | cons s rest ih =>
    intro occ
    cases hlk : mapLookup mm s.matchId with
    | none =>
      simp only [check1Go, teamSched, hlk]
      exact ih occ
    | some m =>
      simp only [check1Go, teamSched, hlk]
      rw [List.append_eq_nil, occStep_errors_nil, ih]
      have hbucket : ∀ t, (mapLookup (occStep (toOcc s) s (getTeamIds m) occ).1 t).getD [] =
          (mapLookup occ t).getD [] ++
            (((getTeamIds m).filter (fun tid => decide (tid = t))).map (fun _ => toOcc s)) :=
        fun t => occStep_bucket (toOcc s) s (getTeamIds m) occ t
      have hdupmem : ∀ {t : String} {n : OccEntry},
          n ∈ ((getTeamIds m).filter (fun tid => decide (tid = t))).map (fun _ => toOcc s) →
          n = toOcc s ∧ t ∈ getTeamIds m := by
        intro t n hn
        rcases List.mem_map.mp hn with ⟨x, hx, rfl⟩
        have hx2 := List.mem_filter.mp hx
        exact ⟨rfl, of_decide_eq_true hx2.2 ▸ hx2.1⟩
      have hmemdup : ∀ {t : String}, t ∈ getTeamIds m →
          toOcc s ∈ ((getTeamIds m).filter (fun tid => decide (tid = t))).map (fun _ => toOcc s) := by
        intro t ht
        exact List.mem_map.mpr ⟨t, List.mem_filter.mpr ⟨ht, by simp⟩, rfl⟩
      constructor
      · rintro ⟨⟨hA, hB⟩, hC⟩
        intro t
        constructor
        · intro o ho n hn
          rcases List.mem_append.mp hn with hn2 | hn2
          · obtain ⟨rfl, htid⟩ := hdupmem hn2
            exact hA t htid o ho
          · refine (hC t).1 o ?_ n hn2
            rw [hbucket t]
            exact List.mem_append_left _ ho
        · rw [List.pairwise_append]
          refine ⟨?_, (hC t).2, ?_⟩
          · by_cases hlen : 2 ≤ ((getTeamIds m).filter (fun tid => decide (tid = t))).length
            · refine pairwise_map_const ?_ ((getTeamIds m).filter (fun tid => decide (tid = t)))
              exact hB (not_nodup_of_two_le_filter hlen)
            · refine pairwise_of_length_le_one ?_
              rw [List.length_map]
              omega
          · intro a ha b hb
            refine (hC t).1 a ?_ b hb
            rw [hbucket t]
            exact List.mem_append_right _ ha
      · intro hR
        refine ⟨⟨?_, ?_⟩, ?_⟩
        · intro tid htid o ho
          exact (hR tid).1 o ho (toOcc s) (List.mem_append_left _ (hmemdup htid))
        · intro hnd
          obtain ⟨a, ha⟩ := filter_two_of_not_nodup hnd
          have hpw := ((List.pairwise_append.mp (hR a).2)).1
          exact pairwise_map_const_extract ha hpw
        · intro t
          constructor
          · intro o ho n hn
            rw [hbucket t] at ho
            rcases List.mem_append.mp ho with ho2 | ho2
            · exact (hR t).1 o ho2 n (List.mem_append_right _ hn)
            · exact (List.pairwise_append.mp (hR t).2).2.2 o ho2 n hn
          · exact (List.pairwise_append.mp (hR t).2).2.1

theorem foldl_append_eq_nil {α β : Type} (g : β → List α) (l : List β) :
    ∀ acc : List α,
      (l.foldl (fun a x => a ++ g x) acc = [] ↔ acc = [] ∧ ∀ x ∈ l, g x = []) := by
  induction l with
  | nil => simp
  | cons x xs ih =>
    intro acc
    simp only [List.foldl_cons]
    rw [ih, List.append_eq_nil, List.forall_mem_cons]
    tauto

theorem check2_eq_nil (restTime : Int) (occMap : List (String × List OccEntry)) :
    check2 restTime occMap = [] ↔
      ∀ kv ∈ occMap, restErrors restTime kv.1 (sortBy occLe kv.2) = [] := by
  unfold check2
  rw [foldl_append_eq_nil]
  simp

theorem restErrors_eq_nil (restTime : Int) (teamId : String) :
    ∀ l : List OccEntry,
      restErrors restTime teamId l = [] ↔
        l.Chain' (fun p c => restTime * 60000 ≤ c.start - p.endT) := by
  intro l
  induction l with
  | nil => simp [restErrors]
  | cons p rest ih =>
    cases rest with
    | nil => simp [restErrors]
    | cons c rest2 =>
      simp only [restErrors]
      rw [List.append_eq_nil, List.chain'_cons]
      constructor
      · rintro ⟨h1, h2⟩
        by_cases hc : c.start - p.endT < restTime * 60000
        · rw [if_pos hc] at h1
          exact absurd h1 (by simp)
        · exact ⟨by omega, ih.mp h2⟩
      · rintro ⟨h1, h2⟩
        refine ⟨?_, ih.mpr h2⟩
        rw [if_neg (by omega)]

theorem depErrors_eq_nil (sm : List (String × ScheduledMatch)) (mId : String)
    (s : ScheduledMatch) :
    ∀ deps : List String,
      depErrors sm mId s deps = [] ↔
        ∀ d ∈ deps, ∃ ds, mapLookup sm d = some ds ∧ ds.endTime ≤ s.startTime := by
  intro deps
  induction deps with
  | nil => simp [depErrors]
  | cons d rest ih =>
    cases hlk : mapLookup sm d with
    | none =>
      simp only [depErrors, hlk]
      constructor
      · intro h
        exact absurd h (by simp)
      · intro hall
        obtain ⟨ds, hds, _⟩ := hall d (List.mem_cons_self _ _)
        rw [hlk] at hds
        exact absurd hds (by simp)
    | some ds =>
      simp only [depErrors, hlk]
      by_cases hlt : s.startTime < ds.endTime
      · rw [if_pos hlt]
        constructor
        · intro h
          exact absurd h (by simp)
        · intro hall
          obtain ⟨ds2, hds2, hle⟩ := hall d (List.mem_cons_self _ _)
          rw [hlk] at hds2
          injection hds2 with hds3
          subst hds3
          omega
      · rw [if_neg hlt, List.nil_append, ih, List.forall_mem_cons]
        constructor
        · intro hall
          exact ⟨⟨ds, hlk, by omega⟩, hall⟩
        · exact fun h => h.2

theorem check3_eq_nil (sm : List (String × ScheduledMatch)) (matchList : List MatchRec) :
    check3 sm matchList = [] ↔
      ∀ m ∈ matchList, ∀ s, mapLookup sm m.id = some s →
        depErrors sm m.id s m.dependencies = [] := by
  unfold check3
  suffices h : ∀ acc : List ValidationError,
      (matchList.foldl
        (fun acc m =>
          match mapLookup sm m.id with
          | none => acc
          | some s => acc ++ depErrors sm m.id s m.dependencies) acc = [] ↔
      (acc = [] ∧ ∀ m ∈ matchList, ∀ s, mapLookup sm m.id = some s →
        depErrors sm m.id s m.dependencies = [])) by
    rw [h []]
    simp
  intro acc
  induction matchList generalizing acc with
  | nil => simp
  | cons m rest ih =>
    simp only [List.foldl_cons]
    cases hlk : mapLookup sm m.id with
    | none =>
      rw [ih, List.forall_mem_cons]
      constructor
      · rintro ⟨ha, hrest⟩
        refine ⟨ha, ?_, hrest⟩
        intro s hs
        rw [hlk] at hs
        exact absurd hs (by simp)
      · rintro ⟨ha, _, hrest⟩
        exact ⟨ha, hrest⟩
    | some s0 =>
      rw [ih, List.append_eq_nil, List.forall_mem_cons]
      constructor
      · rintro ⟨⟨ha, hm⟩, hrest⟩
        refine ⟨ha, ?_, hrest⟩
        intro s hs
        rw [hlk] at hs
        injection hs with hs2
        subst hs2
        exact hm
      · rintro ⟨ha, hm, hrest⟩
        exact ⟨⟨ha, hm s0 hlk⟩, hrest⟩

/-- The declarative contract of `validateSchedule`: per team, no two
recorded intervals overlap (in the source's three-clause sense) and the
start-sorted occupancy leaves at least `restTime` between consecutive
entries; every dependency of every scheduled match is scheduled and ends no
later than the dependent starts. -/
def ValidSpec (schedule : List ScheduledMatch) (matchList : List MatchRec)
    (config : SchedulerConfig) : Prop :=
  (∀ t : String, (teamSched (valMatchMap matchList) t schedule).Pairwise
      (fun earlier later => overlapOcc later earlier = false)) ∧
  (∀ t : String, (sortBy occLe (teamSched (valMatchMap matchList) t schedule)).Chain'
      (fun p c => config.restTime * 60000 ≤ c.start - p.endT)) ∧
  (∀ m ∈ matchList, ∀ s, mapLookup (valScheduleMap schedule) m.id = some s →
      ∀ d ∈ m.dependencies, ∃ ds, mapLookup (valScheduleMap schedule) d = some ds ∧
        ds.endTime ≤ s.startTime)

theorem validationErrors_nil_iff (schedule : List ScheduledMatch)
    (matchList : List MatchRec) (config : SchedulerConfig) :
    validationErrors schedule matchList config = [] ↔ ValidSpec schedule matchList config := by
  unfold validationErrors ValidSpec
  rw [List.append_eq_nil, List.append_eq_nil]
  rw [check1Go_errors_nil, check2_eq_nil, check3_eq_nil]
  constructor
  · rintro ⟨⟨h1, h2⟩, h3⟩
    refine ⟨fun t => (h1 t).2, ?_, ?_⟩
    · intro t
      by_cases hempty : teamSched (valMatchMap matchList) t schedule = []
      · rw [hempty]
        simp [sortBy]
      · have hb := check1Go_bucket (valMatchMap matchList) schedule [] t
        simp only [mapLookup, Option.getD_none, List.nil_append] at hb
        cases hlk : mapLookup (check1Go (valMatchMap matchList) schedule []).1 t with
        | none =>
          rw [hlk] at hb
          simp at hb
          exact absurd hb hempty
        | some v =>
          rw [hlk] at hb
          simp only [Option.getD_some] at hb
          subst hb
          exact (restErrors_eq_nil _ _ _).mp (h2 (t, _) (mapLookup_some_mem hlk))
    · intro m hm s hs d hd
      exact ((depErrors_eq_nil _ _ _ _).mp (h3 m hm s hs)) d hd
  · rintro ⟨h1, h2, h3⟩
    refine ⟨⟨?_, ?_⟩, ?_⟩
    · intro t
      refine ⟨?_, h1 t⟩
      intro o ho
      simp [mapLookup] at ho
    · intro kv hkv
      have hnd : (((check1Go (valMatchMap matchList) schedule []).1).map Prod.fst).Nodup :=
        check1Go_keys_nodup _ _ (by simp)
      have hlk := mem_mapLookup hnd hkv
      have hb := check1Go_bucket (valMatchMap matchList) schedule [] kv.1
      rw [hlk] at hb
      simp only [Option.getD_some, mapLookup, Option.getD_none, List.nil_append] at hb
      rw [hb]
      exact (restErrors_eq_nil _ _ _).mpr (h2 kv.1)
    · intro m hm s hs
      exact (depErrors_eq_nil _ _ _ _).mpr (h3 m hm s hs)

/-- The concrete fixture for C8: team A double-booked in V1/V2, two short
rest gaps, V4 depending on the unscheduled identity VX, V5 starting before
its dependency V1 ends. -/
def exValMatches : List MatchRec :=
  [⟨"V1", "A", "B", 1, 30, []⟩, ⟨"V2", "A", "C", 1, 30, []⟩, ⟨"V3", "B", "D", 1, 30, []⟩,
   ⟨"V4", "E", "F", 2, 30, ["VX"]⟩, ⟨"V5", "G", "H", 2, 30, ["V1"]⟩]

def exValSchedule : List ScheduledMatch :=
  [⟨"V1", "C1", 0, 1800000, 1⟩, ⟨"V2", "C2", 900000, 2700000, 1⟩,
   ⟨"V3", "C1", 2000000, 3800000, 1⟩, ⟨"V4", "C2", 3000000, 4800000, 2⟩,
   ⟨"V5", "C1", 1000000, 2800000, 2⟩]

/-- C8: `validateSchedule` always returns a report (it is a total function);
its `valid` flag is true exactly when the error list is empty, the error
list is empty exactly when the declarative constraints hold (team-interval
overlap freedom, rest gaps, dependency scheduling and ordering), and on a
five-violation fixture it reports all five findings — one entry per
violation of each kind, not just the first failure. -/
theorem validateSchedule_report :
    (∀ (schedule : List ScheduledMatch) (matchList : List MatchRec) (config : SchedulerConfig),
        (validateSchedule schedule matchList config).valid = true ↔
          (validateSchedule schedule matchList config).errors = []) ∧
    (∀ (schedule : List ScheduledMatch) (matchList : List MatchRec) (config : SchedulerConfig),
        (validateSchedule schedule matchList config).valid = true ↔
          ValidSpec schedule matchList config) ∧
    (validateSchedule exValSchedule exValMatches ⟨15, some 0, none⟩).errors =
      [.doubleBooking "A" "V2" "V1", .insufficientRest "A" "V1" "V2",
       .insufficientRest "B" "V1" "V3", .dependencyNotScheduled "V4" "VX",
       .startsBeforeDependency "V5" "V1"] := by
  have hval : ∀ (schedule : List ScheduledMatch) (matchList : List MatchRec)
      (config : SchedulerConfig),
      (validateSchedule schedule matchList config).valid = true ↔
        (validateSchedule schedule matchList config).errors = [] := by
    intro schedule matchList config
    unfold validateSchedule
    simp [List.isEmpty_iff]
  refine ⟨hval, ?_, by decide⟩
  intro schedule matchList config
  rw [hval]
  show validationErrors schedule matchList config = [] ↔ _
  exact validationErrors_nil_iff schedule matchList config

/-- Witness for C8: a valid two-match schedule yields a clean report. -/
theorem validateSchedule_report_witness :
    (validateSchedule [⟨"V1", "C1", 0, 1800000, 1⟩, ⟨"V2", "C2", 0, 1800000, 1⟩]
        [⟨"V1", "A", "B", 1, 30, []⟩, ⟨"V2", "C", "D", 1, 30, []⟩] ⟨15, some 0, none⟩).valid =
      true :=
  (validateSchedule_report.1 _ _ _).mpr (by decide)

/-! ### Helper lemmas for the placement-loop invariant (C3, C4, C5) -/

theorem mapLookup_map_val {κ β γ : Type} [DecidableEq κ] (f : β → γ) (l : List (κ × β)) (k : κ) :
    mapLookup (l.map (fun kv => (kv.1, f kv.2))) k = (mapLookup l k).map f := by
  induction l with
  | nil => simp [mapLookup]
  | cons kv rest ih =>
    obtain ⟨k2, v⟩ := kv
    by_cases h : k2 = k
    · subst h
      simp [mapLookup]
    · simp [mapLookup, h, ih]

theorem keys_map_val {κ β γ : Type} (f : β → γ) (l : List (κ × β)) :
    (l.map (fun kv => (kv.1, f kv.2))).map Prod.fst = l.map Prod.fst := by
  induction l with
  | nil => rfl
  | cons kv rest ih => simp [ih]

theorem keys_mapSet_of_mem {κ β : Type} [DecidableEq κ] {l : List (κ × β)} {k : κ} {w : β}
    (hlk : mapLookup l k = some w) (v : β) :
    (mapSet k v l).map Prod.fst = l.map Prod.fst := by
  induction l with
  | nil => exact absurd hlk (by simp [mapLookup])
  | cons kv rest ih =>
    obtain ⟨k2, v2⟩ := kv
    by_cases h : k2 = k
    · subst h
      simp [mapSet]
    · simp only [mapLookup, if_neg h] at hlk
      simp [mapSet, h, ih hlk]

theorem mapSet_map_val {κ β γ : Type} [DecidableEq κ] {f : β → γ} {l : List (κ × β)}
    {k : κ} {v w : β} (hlk : mapLookup l k = some w) (hf : f v = f w) :
    (mapSet k v l).map (fun kv => (kv.1, f kv.2)) = l.map (fun kv => (kv.1, f kv.2)) := by
  induction l with
  | nil => exact absurd hlk (by simp [mapLookup])
  | cons kv rest ih =>
    obtain ⟨k2, v2⟩ := kv
    by_cases h : k2 = k
    · subst h
      simp only [mapLookup, if_pos rfl] at hlk
      injection hlk with hw
      subst hw
      simp [mapSet, hf]
    · simp only [mapLookup, if_neg h] at hlk
      simp [mapSet, h, ih hlk]

theorem getTeamIds_length (m : MatchRec) : (getTeamIds m).length ≤ 2 := by
  unfold getTeamIds
  split <;> split <;> simp

theorem mem_iff_getElem_of_len_le_two {l : List String} (hlen : l.length ≤ 2) (tid : String) :
    tid ∈ l ↔ (some tid = l[0]? ∨ some tid = l[1]?) := by
  match l with
  | [] => simp
  | [a] => simp [eq_comm]
  | [a, b] => simp [eq_comm]
  | a :: b :: c :: rest => simp at hlen

theorem calculateEarliestStartTime_ge_time (m : MatchRec) (time : Int)
    (ts : List (Option String × TeamState)) :
    time ≤ calculateEarliestStartTime m time ts := by
  unfold calculateEarliestStartTime
  suffices h : ∀ (l : List String) (acc : Int),
      acc ≤ l.foldl (fun earliestStart tid =>
        match mapLookup ts (some tid) with
        | some st => if st.availableAt > earliestStart then st.availableAt else earliestStart
        | none => earliestStart) acc from h _ _
  intro l
  induction l with
  | nil => simp
  | cons tid rest ih =>
    intro acc
    simp only [List.foldl_cons]
    refine le_trans ?_ (ih _)
    cases mapLookup ts (some tid) with
    | none => exact le_refl _
    | some st =>
      dsimp only
      split <;> omega

theorem calculateEarliestStartTime_ge_avail (m : MatchRec) (time : Int)
    (ts : List (Option String × TeamState)) {tid : String} (htid : tid ∈ getTeamIds m)
    {s0 : TeamState} (hlk : mapLookup ts (some tid) = some s0) :
    s0.availableAt ≤ calculateEarliestStartTime m time ts := by
  unfold calculateEarliestStartTime
  have hmono : ∀ (l : List String) (acc : Int),
      acc ≤ l.foldl (fun earliestStart tid =>
        match mapLookup ts (some tid) with
        | some st => if st.availableAt > earliestStart then st.availableAt else earliestStart
        | none => earliestStart) acc := by
    intro l
    induction l with
    | nil => simp
    | cons t2 rest ih =>
      intro acc
      simp only [List.foldl_cons]
      refine le_trans ?_ (ih _)
      cases mapLookup ts (some t2) with
      | none => exact le_refl _
      | some st =>
        dsimp only
        split <;> omega
  suffices h : ∀ (l : List String) (acc : Int), tid ∈ l →
      s0.availableAt ≤ l.foldl (fun earliestStart tid =>
        match mapLookup ts (some tid) with
        | some st => if st.availableAt > earliestStart then st.availableAt else earliestStart
        | none => earliestStart) acc from h _ _ htid
  intro l
  induction l with
  | nil => simp
  | cons t2 rest ih =>
    intro acc hmem
    rcases List.mem_cons.mp hmem with rfl | hmem
    · simp only [List.foldl_cons, hlk]
      refine le_trans ?_ (hmono rest _)
      dsimp only
      split <;> omega
    · simp only [List.foldl_cons]
      exact ih _ hmem

theorem placeStart_ge_calc (ctx : LoopCtx) (st : LoopState) (task : MatchTask) (ci : Nat × Int) :
    calculateEarliestStartTime task.mtch st.time st.teamStates ≤ placeStart ctx st task ci := by
  unfold placeStart
  cases ctx.floorTime with
  | none => exact le_max_right _ _
  | some f => exact le_trans (le_max_right _ _) (le_max_left _ _)

theorem placeStart_eq_time {ctx : LoopCtx} {st : LoopState} {task : MatchTask} {ci : Nat × Int}
    (hle : placeStart ctx st task ci ≤ st.time) : placeStart ctx st task ci = st.time := by
  have h1 := placeStart_ge_calc ctx st task ci
  have h2 := calculateEarliestStartTime_ge_time task.mtch st.time st.teamStates
  omega

theorem areTeamsAvailable_spec {m : MatchRec} {time : Int}
    {ts : List (Option String × TeamState)} (h : areTeamsAvailable m time ts = true)
    {tid : String} (htid : tid ∈ getTeamIds m) :
    mapLookup ts (some tid) = none ∨
      ∃ s0, mapLookup ts (some tid) = some s0 ∧ s0.currentMatch = none ∧ s0.availableAt ≤ time := by
  unfold areTeamsAvailable at h
  have h2 := List.all_eq_true.mp h tid htid
  unfold isTeamAvailable at h2
  cases hlk : mapLookup ts (some tid) with
  | none => exact Or.inl rfl
  | some s0 =>
    rw [hlk] at h2
    simp only [Bool.and_eq_true, decide_eq_true_eq] at h2
    exact Or.inr ⟨s0, rfl, h2.1, h2.2⟩

theorem mem_queueRemove {l : List QItem} {id : String} {x : QItem}
    (h : x ∈ queueRemove id l) : x ∈ l := by
  induction l with
  | nil => exact absurd h (by simp [queueRemove])
  | cons q rest ih =>
    simp only [queueRemove] at h
    split at h
    · exact List.mem_cons_of_mem _ h
    · rcases List.mem_cons.mp h with rfl | h2
      · exact List.mem_cons_self _ _
      · exact List.mem_cons_of_mem _ (ih h2)

theorem queueRemove_id_ne {l : List QItem} {id : String}
    (hnd : (l.map (fun q => q.id)).Nodup) {x : QItem} (h : x ∈ queueRemove id l) :
    x.id ≠ id := by
  induction l with
  | nil => exact absurd h (by simp [queueRemove])
  | cons q rest ih =>
    simp only [List.map_cons, List.nodup_cons] at hnd
    simp only [queueRemove] at h
    split at h
    · rename_i hq
      intro hc
      exact hnd.1 (List.mem_map.mpr ⟨x, h, hc.trans hq.symm⟩)
    · rename_i hq
      rcases List.mem_cons.mp h with rfl | h2
      · exact hq
      · exact ih hnd.2 h2

theorem queueRemove_ids_nodup {l : List QItem} {id : String}
    (hnd : (l.map (fun q => q.id)).Nodup) :
    ((queueRemove id l).map (fun q => q.id)).Nodup := by
  induction l with
  | nil => simp [queueRemove]
  | cons q rest ih =>
    simp only [List.map_cons, List.nodup_cons] at hnd
    simp only [queueRemove]
    split
    · exact hnd.2
    · simp only [List.map_cons, List.nodup_cons]
      refine ⟨?_, ih hnd.2⟩
      intro hc
      rcases List.mem_map.mp hc with ⟨y, hy, hid⟩
      exact hnd.1 (List.mem_map.mpr ⟨y, mem_queueRemove hy, hid⟩)

theorem placeTeams_lookup_notmem (matchId : String) (initialTime : Int) :
    ∀ (tids : List String) (ts : List (Option String × TeamState)) (key : Option String),
    (∀ tid ∈ tids, key ≠ some tid) →
    mapLookup (placeTeams matchId initialTime tids ts) key = mapLookup ts key := by
  intro tids
  induction tids with
  | nil => intro ts key _; rfl
  | cons t rest ih =>
    intro ts key hkey
    unfold placeTeams
    simp only [List.foldl_cons]
    show mapLookup (placeTeams matchId initialTime rest _) key = _
    rw [ih _ key (fun tid htid => hkey tid (List.mem_cons_of_mem _ htid))]
    rw [mapLookup_mapEnsureThen]
    rw [if_neg (fun hc => hkey t (List.mem_cons_self _ _) hc.symm)]

theorem placeTeams_lookup_mem (matchId : String) (initialTime : Int) :
    ∀ (tids : List String) (ts : List (Option String × TeamState)) {tid : String},
    tid ∈ tids →
    mapLookup (placeTeams matchId initialTime tids ts) (some tid) =
      some ⟨((mapLookup ts (some tid)).map (fun s => s.availableAt)).getD initialTime,
            some matchId⟩ := by
  intro tids
  induction tids with
  | nil => intro ts tid h; exact absurd h (List.not_mem_nil _)
  | cons t rest ih =>
    intro ts tid hmem
    unfold placeTeams
    simp only [List.foldl_cons]
    show mapLookup (placeTeams matchId initialTime rest _) (some tid) = _
    by_cases hrest : tid ∈ rest
    · rw [ih _ hrest]
      rw [mapLookup_mapEnsureThen]
      by_cases ht : t = tid
      · subst ht
        rw [if_pos rfl]
        cases mapLookup ts (some t) with
        | none => simp
        | some s0 => simp
      · rw [if_neg (fun hc => ht (by injection hc))]
    · have ht : tid = t := by
        rcases List.mem_cons.mp hmem with h | h
        · exact h
        · exact absurd h hrest
      subst ht
      rw [placeTeams_lookup_notmem _ _ rest _ (some tid)
        (fun t2 ht2 hc => hrest (by injection hc with hc2; exact hc2 ▸ ht2))]
      rw [mapLookup_mapEnsureThen, if_pos rfl]
      cases mapLookup ts (some tid) with
      | none => simp
      | some s0 => simp

theorem unlock_tasks_queue_indep (cid : String) :
    ∀ (depIds : List String) (tasks : List (String × MatchTask)) (q1 q2 : List QItem),
    (unlockDependents cid depIds tasks q1).1 = (unlockDependents cid depIds tasks q2).1 := by
  intro depIds
  induction depIds with
  | nil => intro tasks q1 q2; rfl
  | cons d ds ih =>
    intro tasks q1 q2
    simp only [unlockDependents]
    cases mapLookup tasks d with
    | none => exact ih tasks q1 q2
    | some task =>
      dsimp only
      split
      · exact ih _ _ _
      · exact ih _ _ _

theorem unlock_tasks_lookup (cid : String) :
    ∀ (depIds : List String) (tasks : List (String × MatchTask)) (queue : List QItem),
    depIds.Nodup → ∀ id : String,
    mapLookup (unlockDependents cid depIds tasks queue).1 id =
      if id ∈ depIds then
        (mapLookup tasks id).map
          (fun t => { t with remainingDependencies := t.remainingDependencies.erase cid })
      else mapLookup tasks id := by
  intro depIds
  induction depIds with
  | nil => intro tasks queue _ id; simp [unlockDependents]
  | cons d ds ih =>
    intro tasks queue hnd id
    rw [List.nodup_cons] at hnd
    simp only [unlockDependents]
    cases hlk : mapLookup tasks d with
    | none =>
      rw [ih tasks queue hnd.2 id]
      by_cases hd : id = d
      · subst hd
        rw [if_neg hnd.1, if_pos (List.mem_cons_self _ _), hlk]
        simp
      · by_cases hds : id ∈ ds
        · rw [if_pos hds, if_pos (List.mem_cons_of_mem _ hds)]
        · rw [if_neg hds, if_neg (by
            intro hc
            rcases List.mem_cons.mp hc with h | h
            · exact hd h
            · exact hds h)]
    | some task =>
      dsimp only
      have hstep : ∀ q2 : List QItem,
          mapLookup (unlockDependents cid ds
            (mapSet d { task with
              remainingDependencies := task.remainingDependencies.erase cid } tasks) q2).1 id =
          if id ∈ d :: ds then
            (mapLookup tasks id).map
              (fun t => { t with remainingDependencies := t.remainingDependencies.erase cid })
          else mapLookup tasks id := by
        intro q2
        rw [ih _ q2 hnd.2 id]
        by_cases hd : id = d
        · subst hd
          rw [if_neg hnd.1, if_pos (List.mem_cons_self _ _), hlk, mapLookup_mapSet, if_pos rfl]
          simp
        · have hmemiff : (id ∈ d :: ds) ↔ (id ∈ ds) := by
            constructor
            · intro hc
              rcases List.mem_cons.mp hc with h | h
              · exact absurd h hd
              · exact h
            · exact List.mem_cons_of_mem _
          by_cases hds : id ∈ ds
          · rw [if_pos hds, if_pos (hmemiff.mpr hds), mapLookup_mapSet,
              if_neg (fun hc => hd hc.symm)]
          · rw [if_neg hds, if_neg (fun hc => hds (hmemiff.mp hc)), mapLookup_mapSet,
              if_neg (fun hc => hd hc.symm)]
      split
      · exact hstep _
      · exact hstep _

/-- The queue items appended (in some order) by `unlockDependents`. -/
def unlockNew (cid : String) (tasks : List (String × MatchTask)) (depIds : List String) :
    List QItem :=
  depIds.filterMap (fun d =>
    match mapLookup tasks d with
    | none => none
    | some task =>
      if task.remainingDependencies.erase cid = [] then
        some ⟨task.mtch.id, task.mtch.round⟩
      else none)

theorem enqueue_perm (queue : List QItem) (item : QItem) :
    (enqueue queue item).Perm (queue ++ [item]) :=
  sortBy_perm _ _

theorem unlock_queue_perm (cid : String) :
    ∀ (depIds : List String) (tasks : List (String × MatchTask)) (queue : List QItem),
    depIds.Nodup →
    ((unlockDependents cid depIds tasks queue).2).Perm
      (queue ++ unlockNew cid tasks depIds) := by
  intro depIds
  induction depIds with
  | nil => intro tasks queue _; simp [unlockDependents, unlockNew]
  | cons d ds ih =>
    intro tasks queue hnd
    rw [List.nodup_cons] at hnd
    have hcong : ∀ tasks2 : List (String × MatchTask),
        (∀ d2 ∈ ds, mapLookup tasks2 d2 = mapLookup tasks d2) →
        unlockNew cid tasks2 ds = unlockNew cid tasks ds := by
      intro tasks2 hsame
      unfold unlockNew
      refine List.filterMap_congr ?_
      intro d2 hd2
      rw [hsame d2 hd2]
    simp only [unlockDependents]
    cases hlk : mapLookup tasks d with
    | none =>
      have := ih tasks queue hnd.2
      simp only [unlockNew, List.filterMap_cons, hlk] at this ⊢
      exact this
    | some task =>
      dsimp only
      have hsame : ∀ d2 ∈ ds,
          mapLookup (mapSet d { task with
            remainingDependencies := task.remainingDependencies.erase cid } tasks) d2 =
          mapLookup tasks d2 := by
        intro d2 hd2
        rw [mapLookup_mapSet, if_neg (fun hc => hnd.1 (by rw [hc]; exact hd2))]
      split
      · rename_i hempty
        have hperm := ih
          (mapSet d { task with
            remainingDependencies := task.remainingDependencies.erase cid } tasks)
          (enqueue queue ⟨task.mtch.id, task.mtch.round⟩) hnd.2
        rw [hcong _ hsame] at hperm
        refine hperm.trans ?_
        simp only [unlockNew, List.filterMap_cons, hlk, if_pos hempty]
        refine ((enqueue_perm queue _).append_right _).trans ?_
        rw [List.append_assoc]
        exact List.Perm.refl _
      · rename_i hne
        have hperm := ih
          (mapSet d { task with
            remainingDependencies := task.remainingDependencies.erase cid } tasks)
          queue hnd.2
        rw [hcong _ hsame] at hperm
        refine hperm.trans ?_
        simp only [unlockNew, List.filterMap_cons, hlk, if_neg hne]
        exact List.Perm.refl _

theorem mem_unlockNew {cid : String} {tasks : List (String × MatchTask)}
    {depIds : List String} {x : QItem} (h : x ∈ unlockNew cid tasks depIds) :
    ∃ d ∈ depIds, ∃ task, mapLookup tasks d = some task ∧
      task.remainingDependencies.erase cid = [] ∧
      x = ⟨task.mtch.id, task.mtch.round⟩ := by
  unfold unlockNew at h
  rcases List.mem_filterMap.mp h with ⟨d, hd, hfx⟩
  cases hlk : mapLookup tasks d with
  | none => rw [hlk] at hfx; exact absurd hfx (by simp)
  | some task =>
    rw [hlk] at hfx
    dsimp only at hfx
    split at hfx
    · rename_i hempty
      injection hfx with hfx2
      exact ⟨d, hd, task, hlk, hempty, hfx2.symm⟩
    · exact absurd hfx (by simp)

theorem processEvent_time (ctx : LoopCtx) (e : Event) (st : LoopState) :
    (processEvent ctx e st).time = st.time := rfl

theorem processEvent_events (ctx : LoopCtx) (e : Event) (st : LoopState) :
    (processEvent ctx e st).events = st.events := rfl

theorem flushAux_time (ctx : LoopCtx) :
    ∀ (es : List Event) (st : LoopState), (flushAux ctx es st).time = st.time := by
  intro es
  induction es with
  | nil => intro st; rfl
  | cons e rest ih =>
    intro st
    simp only [flushAux]
    split
    · rw [ih]
      rfl
    · rfl

theorem flushAux_flushed (ctx : LoopCtx) :
    ∀ (es : List Event) (st : LoopState), st.events = es →
    (flushAux ctx es st).events = [] ∨
      ∃ e rest, (flushAux ctx es st).events = e :: rest ∧ ¬ e.time ≤ (flushAux ctx es st).time := by
  intro es
  induction es with
  | nil =>
    intro st hev
    exact Or.inl hev
  | cons e rest ih =>
    intro st hev
    simp only [flushAux]
    split
    · exact ih _ (by rw [processEvent_events])
    · rename_i hlate
      exact Or.inr ⟨e, rest, hev, hlate⟩

theorem nextAvailTime_gt {ctx : LoopCtx} {st : LoopState}
    (h : nextAvailTime ctx st < maxDateMs) : st.time < nextAvailTime ctx st := by
  have key : ∀ {β : Type} (g : β → Int) (l : List β) (acc : Int),
      (l.foldl (fun acc kv => if g kv > st.time ∧ g kv < acc then g kv else acc) acc = acc ∨
        st.time < l.foldl (fun acc kv => if g kv > st.time ∧ g kv < acc then g kv else acc) acc) := by
    intro β g l
    induction l with
    | nil => intro acc; exact Or.inl rfl
    | cons x xs ih =>
      intro acc
      simp only [List.foldl_cons]
      split
      · rename_i hx
        rcases ih (g x) with h2 | h2
        · exact Or.inr (by omega)
        · exact Or.inr h2
      · exact ih acc
  unfold nextAvailTime at h ⊢
  have h1 := key (fun kv : Option String × TeamState => kv.2.availableAt) st.teamStates maxDateMs
  have h2 := key (fun c : CourtState => c.availableAt) st.courtStates
    (st.teamStates.foldl
      (fun acc kv => if kv.2.availableAt > st.time ∧ kv.2.availableAt < acc then kv.2.availableAt else acc)
      maxDateMs)
  cases hf : ctx.floorTime with
  | none =>
    simp only [hf] at h ⊢
    rcases h2 with h2 | h2
    · rw [h2] at h ⊢
      rcases h1 with h1 | h1
      · rw [h1] at h
        exact absurd h (by simp [maxDateMs])
      · exact h1
    · exact h2
  | some f =>
    simp only [hf] at h ⊢
    split at h
    · rename_i hcond
      split
      · omega
      · rename_i hcond2
        exact absurd hcond hcond2
    · rename_i hcond
      rw [if_neg hcond]
      rcases h2 with h2 | h2
      · rw [h2] at h ⊢
        rcases h1 with h1 | h1
        · rw [h1] at h
          exact absurd h (by simp [maxDateMs])
        · exact h1
      · exact h2

theorem sortBy_eventLe_pairwise (l : List Event) :
    (sortBy eventLe l).Pairwise (fun a b => a.time ≤ b.time) := by
  have hp := @sortBy_pairwise Event eventLe
    (fun a b c h1 h2 => by
      unfold eventLe at h1 h2 ⊢
      rw [decide_eq_true_eq] at h1 h2 ⊢
      omega)
    (fun a b => by
      unfold eventLe
      by_cases h : a.time ≤ b.time
      · exact Or.inl (decide_eq_true h)
      · exact Or.inr (decide_eq_true (by omega)))
    l
  exact hp.imp (fun h => by
    unfold eventLe at h
    exact of_decide_eq_true h)

theorem mem_mapSet_elim {κ β : Type} [DecidableEq κ] {l : List (κ × β)} {k : κ} {v : β}
    {kv : κ × β} (h : kv ∈ mapSet k v l) : kv ∈ l ∨ kv = (k, v) := by
  induction l with
  | nil =>
    simp only [mapSet, List.mem_singleton] at h
    exact Or.inr h
  | cons kv2 rest ih =>
    obtain ⟨k2, v2⟩ := kv2
    simp only [mapSet] at h
    split at h
    · rcases List.mem_cons.mp h with h2 | h2
      · exact Or.inr (by rename_i heq; rw [h2, heq])
      · exact Or.inl (List.mem_cons_of_mem _ h2)
    · rcases List.mem_cons.mp h with h2 | h2
      · exact Or.inl (h2 ▸ List.mem_cons_self _ _)
      · rcases ih h2 with h3 | h3
        · exact Or.inl (List.mem_cons_of_mem _ h3)
        · exact Or.inr h3

theorem buildTasks_mem {matchList : List MatchRec} {kv : String × MatchTask}
    (h : kv ∈ buildTasks matchList) :
    kv.2.mtch ∈ matchList ∧ kv.2.mtch.id = kv.1 ∧
      kv.2.remainingDependencies = setOfList kv.2.mtch.dependencies := by
  suffices hgen : ∀ (ml : List MatchRec) (acc : List (String × MatchTask)),
      kv ∈ ml.foldl (fun acc m => mapSet m.id ⟨m, setOfList m.dependencies⟩ acc) acc →
      kv ∈ acc ∨ (kv.2.mtch ∈ ml ∧ kv.2.mtch.id = kv.1 ∧
        kv.2.remainingDependencies = setOfList kv.2.mtch.dependencies) by
    rcases hgen matchList [] h with h2 | h2
    · exact absurd h2 (List.not_mem_nil _)
    · exact h2
  intro ml
  induction ml with
  | nil => intro acc h2; exact Or.inl h2
  | cons m rest ih =>
    intro acc h2
    simp only [List.foldl_cons] at h2
    rcases ih _ h2 with h3 | h3
    · rcases mem_mapSet_elim h3 with h4 | h4
      · exact Or.inl h4
      · subst h4
        exact Or.inr ⟨List.mem_cons_self _ _, rfl, rfl⟩
    · exact Or.inr ⟨List.mem_cons_of_mem _ h3.1, h3.2⟩

theorem keys_mapSet_full {κ β : Type} [DecidableEq κ] (k : κ) (v : β) (l : List (κ × β)) :
    (mapSet k v l).map Prod.fst =
      if k ∈ l.map Prod.fst then l.map Prod.fst else l.map Prod.fst ++ [k] := by
  induction l with
  | nil => simp [mapSet]
  | cons kv rest ih =>
    obtain ⟨k2, v2⟩ := kv
    by_cases h : k2 = k
    · subst h
      simp [mapSet]
    · simp only [mapSet, if_neg h, List.map_cons, ih]
      by_cases h2 : k ∈ rest.map Prod.fst
      · simp [h2, Ne.symm h]
      · simp [h2, Ne.symm h]

theorem keys_nodup_mapSet {κ β : Type} [DecidableEq κ] (k : κ) (v : β) {l : List (κ × β)}
    (hnd : (l.map Prod.fst).Nodup) : ((mapSet k v l).map Prod.fst).Nodup := by
  rw [keys_mapSet_full]
  split
  · exact hnd
  · rename_i h
    simp [List.nodup_append, hnd, h]

theorem buildTasks_keys_nodup (matchList : List MatchRec) :
    ((buildTasks matchList).map Prod.fst).Nodup := by
  suffices hgen : ∀ (ml : List MatchRec) (acc : List (String × MatchTask)),
      (acc.map Prod.fst).Nodup →
      ((ml.foldl (fun acc m => mapSet m.id ⟨m, setOfList m.dependencies⟩ acc) acc).map
        Prod.fst).Nodup from hgen matchList [] (by simp)
  intro ml
  induction ml with
  | nil => exact fun acc h => h
  | cons m rest ih =>
    intro acc hnd
    simp only [List.foldl_cons]
    exact ih _ (keys_nodup_mapSet _ _ hnd)

theorem foldl_mapSet_lookup_untouched (step : MatchRec → MatchTask) :
    ∀ (ml : List MatchRec) (acc : List (String × MatchTask)) (id : String),
    id ∉ ml.map (fun m => m.id) →
    mapLookup (ml.foldl (fun acc m => mapSet m.id (step m) acc) acc) id = mapLookup acc id := by
  intro ml
  induction ml with
  | nil => intro acc id _; rfl
  | cons m rest ih =>
    intro acc id hid
    simp only [List.map_cons, List.mem_cons] at hid
    push_neg at hid
    simp only [List.foldl_cons]
    rw [ih _ _ hid.2, mapLookup_mapSet, if_neg (fun hc => hid.1 hc.symm)]

theorem buildTasks_lookup_of_mem {matchList : List MatchRec}
    (hids : (matchList.map (fun m => m.id)).Nodup) {m : MatchRec} (hm : m ∈ matchList) :
    mapLookup (buildTasks matchList) m.id = some ⟨m, setOfList m.dependencies⟩ := by
  suffices hgen : ∀ (ml : List MatchRec) (acc : List (String × MatchTask)),
      (ml.map (fun m2 => m2.id)).Nodup → m ∈ ml →
      mapLookup (ml.foldl (fun acc m2 => mapSet m2.id ⟨m2, setOfList m2.dependencies⟩ acc) acc)
        m.id = some ⟨m, setOfList m.dependencies⟩ from hgen matchList [] hids hm
  intro ml
  induction ml with
  | nil => intro acc _ hmem; exact absurd hmem (List.not_mem_nil _)
  | cons m2 rest ih =>
    intro acc hnd hmem
    simp only [List.map_cons, List.nodup_cons] at hnd
    simp only [List.foldl_cons]
    rcases List.mem_cons.mp hmem with rfl | hmem2
    · rw [foldl_mapSet_lookup_untouched _ _ _ _ hnd.1, mapLookup_mapSet, if_pos rfl]
    · exact ih _ hnd.2 hmem2

theorem initQueue_perm (tasks : List (String × MatchTask)) :
    (initQueue tasks).Perm (tasks.filterMap (fun kv =>
      if kv.2.remainingDependencies = [] then some ⟨kv.2.mtch.id, kv.2.mtch.round⟩ else none)) := by
  suffices hgen : ∀ (l : List (String × MatchTask)) (q0 : List QItem),
      (l.foldl (fun q kv =>
        if kv.2.remainingDependencies = [] then enqueue q ⟨kv.2.mtch.id, kv.2.mtch.round⟩ else q)
        q0).Perm
      (q0 ++ l.filterMap (fun kv =>
        if kv.2.remainingDependencies = [] then some ⟨kv.2.mtch.id, kv.2.mtch.round⟩ else none)) by
    have h := hgen tasks []
    simpa [initQueue] using h
  intro l
  induction l with
  | nil => intro q0; simp
  | cons kv rest ih =>
    intro q0
    simp only [List.foldl_cons, List.filterMap_cons]
    by_cases h : kv.2.remainingDependencies = []
    · rw [if_pos h, if_pos h]
      refine (ih _).trans ?_
      refine ((enqueue_perm q0 _).append_right _).trans ?_
      rw [List.append_assoc]
      exact List.Perm.refl _
    · rw [if_neg h, if_neg h]
      exact ih q0

theorem buildDependents_mem {matchList : List MatchRec} {cid d : String}
    (h : d ∈ (mapLookup (buildDependents matchList) cid).getD []) :
    ∃ m ∈ matchList, m.id = d ∧ cid ∈ m.dependencies := by
  have hinner : ∀ (m : MatchRec) (deps : List String) (acc2 : List (String × List String)),
      d ∈ (mapLookup (deps.foldl
        (fun acc2 depId => mapEnsureThen depId [] (fun s => setAdd s m.id) acc2) acc2) cid).getD [] →
      d ∈ (mapLookup acc2 cid).getD [] ∨ (d = m.id ∧ cid ∈ deps) := by
    intro m deps
    induction deps with
    | nil => intro acc2 h2; exact Or.inl h2
    | cons dep rest ih =>
      intro acc2 h2
      simp only [List.foldl_cons] at h2
      rcases ih _ h2 with h3 | h3
      · rw [mapLookup_mapEnsureThen] at h3
        by_cases hdep : dep = cid
        · rw [if_pos hdep, Option.getD_some, hdep] at h3
          rcases mem_setAdd.mp h3 with h4 | h4
          · exact Or.inl h4
          · exact Or.inr ⟨h4, hdep ▸ List.mem_cons_self _ _⟩
        · rw [if_neg hdep] at h3
          exact Or.inl h3
      · exact Or.inr ⟨h3.1, List.mem_cons_of_mem _ h3.2⟩
  suffices hgen : ∀ (ml : List MatchRec) (acc : List (String × List String)),
      d ∈ (mapLookup (ml.foldl
        (fun acc m => m.dependencies.foldl
          (fun acc2 depId => mapEnsureThen depId [] (fun s => setAdd s m.id) acc2) acc) acc)
        cid).getD [] →
      d ∈ (mapLookup acc cid).getD [] ∨ ∃ m ∈ ml, m.id = d ∧ cid ∈ m.dependencies by
    rcases hgen matchList [] h with h2 | h2
    · simp [mapLookup] at h2
    · exact h2
  intro ml
  induction ml with
  | nil => intro acc h2; exact Or.inl h2
  | cons m rest ih =>
    intro acc h2
    simp only [List.foldl_cons] at h2
    rcases ih _ h2 with h3 | h3
    · rcases hinner m m.dependencies acc h3 with h4 | h4
      · exact Or.inl h4
      · exact Or.inr ⟨m, List.mem_cons_self _ _, h4.1.symm, h4.2⟩
    · obtain ⟨m2, hm2, hid, hcid⟩ := h3
      exact Or.inr ⟨m2, List.mem_cons_of_mem _ hm2, hid, hcid⟩

theorem setAdd_nodup {κ : Type} [DecidableEq κ] {l : List κ} (hnd : l.Nodup) (x : κ) :
    (setAdd l x).Nodup := by
  unfold setAdd
  split
  · exact hnd
  · rename_i h
    simp [List.nodup_append, hnd, h]

theorem buildDependents_bucket_nodup (matchList : List MatchRec) (cid : String) :
    ((mapLookup (buildDependents matchList) cid).getD []).Nodup := by
  have hinner : ∀ (m : MatchRec) (deps : List String) (acc2 : List (String × List String)),
      (∀ k : String, ((mapLookup acc2 k).getD []).Nodup) →
      ∀ k : String, ((mapLookup (deps.foldl
        (fun acc2 depId => mapEnsureThen depId [] (fun s => setAdd s m.id) acc2) acc2) k).getD
        []).Nodup := by
    intro m deps
    induction deps with
    | nil => intro acc2 hacc k; exact hacc k
    | cons dep rest ih =>
      intro acc2 hacc k
      simp only [List.foldl_cons]
      refine ih _ ?_ k
      intro k2
      rw [mapLookup_mapEnsureThen]
      by_cases hdep : dep = k2
      · rw [if_pos hdep, Option.getD_some, hdep]
        exact setAdd_nodup (hacc k2) _
      · rw [if_neg hdep]
        exact hacc k2
  suffices hgen : ∀ (ml : List MatchRec) (acc : List (String × List String)),
      (∀ k : String, ((mapLookup acc k).getD []).Nodup) →
      ∀ k : String, ((mapLookup (ml.foldl
        (fun acc m => m.dependencies.foldl
          (fun acc2 depId => mapEnsureThen depId [] (fun s => setAdd s m.id) acc2) acc) acc)
        k).getD []).Nodup by
    exact hgen matchList [] (by intro k; simp [mapLookup]) cid
  intro ml
  induction ml with
  | nil => intro acc hacc k; exact hacc k
  | cons m rest ih =>
    intro acc hacc k
    simp only [List.foldl_cons]
    exact ih _ (hinner m m.dependencies acc hacc) k

theorem pairwise_mem_or {α : Type} {R : α → α → Prop} :
    ∀ {l : List α}, l.Pairwise R → ∀ {a b : α}, a ∈ l → b ∈ l → a ≠ b → R a b ∨ R b a := by
  intro l
  induction l with
  | nil => intro _ a b ha; exact absurd ha (List.not_mem_nil _)
  | cons x xs ih =>
    intro h a b ha hb hne
    rcases List.pairwise_cons.mp h with ⟨hx, hxs⟩
    rcases List.mem_cons.mp ha with rfl | ha2
    · rcases List.mem_cons.mp hb with rfl | hb2
      · exact absurd rfl hne
      · exact Or.inl (hx b hb2)
    · rcases List.mem_cons.mp hb with rfl | hb2
      · exact Or.inr (hx a ha2)
      · exact ih hxs ha2 hb2 hne

theorem eq_of_nodup_map {α β : Type} {f : α → β} :
    ∀ {l : List α}, (l.map f).Nodup → ∀ {a b : α}, a ∈ l → b ∈ l → f a = f b → a = b := by
  intro l
  induction l with
  | nil => intro _ a b ha; exact absurd ha (List.not_mem_nil _)
  | cons x xs ih =>
    intro h a b ha hb hfe
    simp only [List.map_cons, List.nodup_cons] at h
    rcases List.mem_cons.mp ha with rfl | ha2
    · rcases List.mem_cons.mp hb with rfl | hb2
      · rfl
      · exact absurd (List.mem_map.mpr ⟨b, hb2, hfe.symm⟩) h.1
    · rcases List.mem_cons.mp hb with rfl | hb2
      · exact absurd (List.mem_map.mpr ⟨a, ha2, hfe⟩) h.1
      · exact ih h.2 ha2 hb2 hfe

/-! ### C3, C4, C5: the main loop invariant -/

/-- The static match data carried by the task map. -/
def taskMatches (tasks : List (String × MatchTask)) : List (String × MatchRec) :=
  tasks.map (fun kv => (kv.1, kv.2.mtch))

/-- The id-keyed match map induced by the input list (later entries win,
as in the `Map` the scheduler builds). -/
def matchMapOf (matchList : List MatchRec) : List (String × MatchRec) :=
  taskMatches (buildTasks matchList)

theorem taskMatches_lookup (tasks : List (String × MatchTask)) (id : String) :
    mapLookup (taskMatches tasks) id = (mapLookup tasks id).map (fun t => t.mtch) :=
  mapLookup_map_val _ _ _

theorem taskMatches_keys (tasks : List (String × MatchTask)) :
    (taskMatches tasks).map Prod.fst = tasks.map Prod.fst :=
  keys_map_val _ _

theorem unlock_taskMatches (cid : String) :
    ∀ (depIds : List String) (tasks : List (String × MatchTask)) (queue : List QItem),
    taskMatches (unlockDependents cid depIds tasks queue).1 = taskMatches tasks := by
  intro depIds
  induction depIds with
  | nil => intro tasks queue; rfl
  | cons d ds ih =>
    intro tasks queue
    simp only [unlockDependents]
    cases hlk : mapLookup tasks d with
    | none => exact ih tasks queue
    | some task =>
      dsimp only
      have hset : taskMatches (mapSet d { task with
          remainingDependencies := task.remainingDependencies.erase cid } tasks) =
          taskMatches tasks := mapSet_map_val hlk rfl
      split
      · rw [ih, hset]
      · rw [ih, hset]

/-- The invariant of the scheduling loop (`scheduleMatches` instantiation):
`ctx` is the static context, `tm` the static id-keyed match map, `st` the
evolving state.  It ties the schedule, the pending `MATCH_END` events, the
team states, the task map and the ready queue together tightly enough to
carry the rest-time, dependency-order and no-double-booking guarantees. -/
structure LoopInv (ctx : LoopCtx) (tm : List (String × MatchRec)) (st : LoopState) : Prop where
  tmProj : taskMatches st.tasks = tm
  tmKeysNodup : (tm.map Prod.fst).Nodup
  tmDur : ∀ kv ∈ tm, 0 < kv.2.duration
  tmId : ∀ kv ∈ tm, kv.2.id = kv.1
  depSound : ∀ cid : String, ∀ d ∈ (mapLookup ctx.dependents cid).getD [],
    ∀ m, mapLookup tm d = some m → cid ∈ setOfList m.dependencies
  depIdsNodup : ∀ cid : String, ((mapLookup ctx.dependents cid).getD []).Nodup
  schedNodup : (st.schedule.map (fun c => c.matchId)).Nodup
  schedMatch : ∀ c ∈ st.schedule, ∃ m, mapLookup tm c.matchId = some m ∧
    c.endTime = c.startTime + m.duration * 60000
  evNodup : (st.events.map (fun e => e.matchId)).Nodup
  evSorted : st.events.Pairwise (fun a b => a.time ≤ b.time)
  evEntry : ∀ e ∈ st.events, ∃ c ∈ st.schedule, c.matchId = e.matchId ∧ e.time = c.endTime
  evTeams : ∀ e ∈ st.events, ∃ m, mapLookup tm e.matchId = some m ∧
    e.team1Id = (getTeamIds m)[0]? ∧ e.team2Id = (getTeamIds m)[1]?
  qTask : ∀ q ∈ st.queue, ∃ task, mapLookup st.tasks q.id = some task ∧
    task.remainingDependencies = []
  qNotPlaced : ∀ q ∈ st.queue, q.id ∉ st.schedule.map (fun c => c.matchId)
  qNodup : (st.queue.map (fun q => q.id)).Nodup
  waiting : ∀ (id : String) (task : MatchTask), mapLookup st.tasks id = some task →
    task.remainingDependencies ≠ [] →
    id ∉ st.queue.map (fun q => q.id) ∧ id ∉ st.schedule.map (fun c => c.matchId)
  placedDone : ∀ c ∈ st.schedule, ∀ task, mapLookup st.tasks c.matchId = some task →
    task.remainingDependencies = []
  depDone : ∀ (id : String) (task : MatchTask), mapLookup st.tasks id = some task →
    ∀ d ∈ setOfList task.mtch.dependencies, d ∉ task.remainingDependencies →
    ∃ c ∈ st.schedule, c.matchId = d ∧ c.endTime ≤ st.time ∧
      d ∉ st.events.map (fun e => e.matchId)
  doneLeTime : ∀ c ∈ st.schedule, c.matchId ∉ st.events.map (fun e => e.matchId) →
    c.endTime ≤ st.time
  doneLeEvents : ∀ c ∈ st.schedule, c.matchId ∉ st.events.map (fun e => e.matchId) →
    ∀ e ∈ st.events, c.endTime ≤ e.time
  teamPending : ∀ c ∈ st.schedule, c.matchId ∈ st.events.map (fun e => e.matchId) →
    ∀ m, mapLookup tm c.matchId = some m → ∀ tid ∈ getTeamIds m,
    ∃ ts0, mapLookup st.teamStates (some tid) = some ts0 ∧ ts0.currentMatch = some c.matchId
  teamDone : ∀ c ∈ st.schedule, c.matchId ∉ st.events.map (fun e => e.matchId) →
    ∀ m, mapLookup tm c.matchId = some m → ∀ tid ∈ getTeamIds m,
    ∃ ts0, mapLookup st.teamStates (some tid) = some ts0 ∧
      c.endTime + ctx.restTime * 60000 ≤ ts0.availableAt
  restGap : st.schedule.Pairwise (fun c1 c2 => ∀ m1 m2,
    mapLookup tm c1.matchId = some m1 → mapLookup tm c2.matchId = some m2 →
    ∀ tid, tid ∈ getTeamIds m1 → tid ∈ getTeamIds m2 →
    c1.endTime + ctx.restTime * 60000 ≤ c2.startTime)
  depOrder : ∀ c ∈ st.schedule, ∀ m, mapLookup tm c.matchId = some m →
    ∀ d ∈ m.dependencies, ∀ c2 ∈ st.schedule, c2.matchId = d → c2.endTime ≤ c.startTime

theorem LoopInv.tasksKeysNodup {ctx : LoopCtx} {tm : List (String × MatchRec)} {st : LoopState}
    (hinv : LoopInv ctx tm st) : (st.tasks.map Prod.fst).Nodup := by
  have h := hinv.tmKeysNodup
  rw [← hinv.tmProj, taskMatches_keys] at h
  exact h

theorem LoopInv.tmLookup {ctx : LoopCtx} {tm : List (String × MatchRec)} {st : LoopState}
    (hinv : LoopInv ctx tm st) (id : String) :
    mapLookup tm id = (mapLookup st.tasks id).map (fun t => t.mtch) := by
  rw [← hinv.tmProj, taskMatches_lookup]

theorem LoopInv.taskId {ctx : LoopCtx} {tm : List (String × MatchRec)} {st : LoopState}
    (hinv : LoopInv ctx tm st) {id : String} {task : MatchTask}
    (hlk : mapLookup st.tasks id = some task) : task.mtch.id = id := by
  have h1 : mapLookup tm id = some task.mtch := by
    rw [hinv.tmLookup, hlk]
    rfl
  exact hinv.tmId (id, task.mtch) (mapLookup_some_mem h1)

theorem unlockNew_ids {cid : String} {tasks : List (String × MatchTask)}
    (hid : ∀ (d : String) (task : MatchTask), mapLookup tasks d = some task →
      task.mtch.id = d) :
    ∀ depIds : List String,
    (unlockNew cid tasks depIds).map (fun q => q.id) =
      depIds.filter (fun d =>
        match mapLookup tasks d with
        | none => false
        | some task => decide (task.remainingDependencies.erase cid = [])) := by
  intro depIds
  induction depIds with
  | nil => rfl
  | cons d ds ih =>
    simp only [unlockNew, List.filterMap_cons, List.filter_cons] at ih ⊢
    cases hlk : mapLookup tasks d with
    | none =>
      simp only [hlk]
      exact ih
    | some task =>
      simp only [hlk]
      by_cases he : task.remainingDependencies.erase cid = []
      · simp only [if_pos he, decide_eq_true he, if_pos rfl, List.map_cons, ih]
        rw [hid d task hlk]
        simp
      · have hd : decide (task.remainingDependencies.erase cid = []) = false :=
          decide_eq_false he
        simp only [if_neg he, hd, Bool.false_eq_true, if_false]
        exact ih

theorem processEvent_team_lookup (ctx : LoopCtx) (e : Event) (st : LoopState)
    (key : Option String) :
    mapLookup (processEvent ctx e st).teamStates key =
      if key = e.team1Id ∨ key = e.team2Id then
        some ⟨e.time + ctx.restTime * 60000, none⟩
      else mapLookup st.teamStates key := by
  show mapLookup
    (mapEnsureThen e.team2Id ⟨ctx.initialTime, none⟩ (freeTeam (e.time + ctx.restTime * 60000))
      (mapEnsureThen e.team1Id ⟨ctx.initialTime, none⟩ (freeTeam (e.time + ctx.restTime * 60000))
        st.teamStates)) key = _
  rw [mapLookup_mapEnsureThen]
  by_cases h2 : e.team2Id = key
  · rw [if_pos h2, if_pos (Or.inr h2.symm)]
    rfl
  · rw [if_neg h2, mapLookup_mapEnsureThen]
    by_cases h1 : e.team1Id = key
    · rw [if_pos h1, if_pos (Or.inl h1.symm)]
      rfl
    · rw [if_neg h1, if_neg (fun hc => hc.elim (fun h => h1 h.symm) (fun h => h2 h.symm))]

theorem inv_processEvent {ctx : LoopCtx} {tm : List (String × MatchRec)} {st : LoopState}
    {e : Event} {rest : List Event} (hinv : LoopInv ctx tm st) (hev : st.events = e :: rest)
    (hle : e.time ≤ st.time) :
    LoopInv ctx tm (processEvent ctx e { st with events := rest }) := by
  have hDepNd : ((mapLookup ctx.dependents e.matchId).getD []).Nodup :=
    hinv.depIdsNodup e.matchId
  have heMem : e ∈ st.events := by rw [hev]; exact List.mem_cons_self _ _
  obtain ⟨ce, hceMem, hceId, hceTime⟩ := hinv.evEntry e heMem
  obtain ⟨me, hmeLk, hmeT1, hmeT2⟩ := hinv.evTeams e heMem
  have hEvNd0 := hinv.evNodup
  rw [hev, List.map_cons, List.nodup_cons] at hEvNd0
  have hEvSort0 := hinv.evSorted
  rw [hev, List.pairwise_cons] at hEvSort0
  have hTasksEq : (processEvent ctx e { st with events := rest }).tasks =
      (unlockDependents e.matchId ((mapLookup ctx.dependents e.matchId).getD [])
        st.tasks st.queue).1 := rfl
  have hQueueEq : (processEvent ctx e { st with events := rest }).queue =
      (unlockDependents e.matchId ((mapLookup ctx.dependents e.matchId).getD [])
        st.tasks st.queue).2 := rfl
  have hSchedEq : (processEvent ctx e { st with events := rest }).schedule = st.schedule := rfl
  have hTimeEq : (processEvent ctx e { st with events := rest }).time = st.time := rfl
  have hEventsEq : (processEvent ctx e { st with events := rest }).events = rest := rfl
  have hT : ∀ id : String,
      mapLookup (processEvent ctx e { st with events := rest }).tasks id =
        if id ∈ (mapLookup ctx.dependents e.matchId).getD [] then
          (mapLookup st.tasks id).map (fun t =>
            { t with remainingDependencies := t.remainingDependencies.erase e.matchId })
        else mapLookup st.tasks id := by
    intro id
    rw [hTasksEq]
    exact unlock_tasks_lookup e.matchId _ st.tasks st.queue hDepNd id
  have hTeams : ∀ key : Option String,
      mapLookup (processEvent ctx e { st with events := rest }).teamStates key =
        if key = e.team1Id ∨ key = e.team2Id then
          some ⟨e.time + ctx.restTime * 60000, none⟩
        else mapLookup st.teamStates key :=
    fun key => processEvent_team_lookup ctx e { st with events := rest } key
  have hQperm : (processEvent ctx e { st with events := rest }).queue.Perm
      (st.queue ++ unlockNew e.matchId st.tasks
        ((mapLookup ctx.dependents e.matchId).getD [])) := by
    rw [hQueueEq]
    exact unlock_queue_perm e.matchId _ st.tasks st.queue hDepNd
  have hTaskId : ∀ (d : String) (task : MatchTask),
      mapLookup st.tasks d = some task → task.mtch.id = d :=
    fun d task hlk => hinv.taskId hlk
  have hQidsEq : ((processEvent ctx e { st with events := rest }).queue.map
      (fun q => q.id)).Perm
      (st.queue.map (fun q => q.id) ++
        (unlockNew e.matchId st.tasks ((mapLookup ctx.dependents e.matchId).getD [])).map
          (fun q => q.id)) := by
    have h := hQperm.map (fun q => q.id)
    rw [List.map_append] at h
    exact h
  have hPendingDep : ∀ (d : String) (task : MatchTask),
      d ∈ (mapLookup ctx.dependents e.matchId).getD [] →
      mapLookup st.tasks d = some task →
      e.matchId ∈ setOfList task.mtch.dependencies := by
    intro d task hd hlk
    refine hinv.depSound e.matchId d hd task.mtch ?_
    rw [hinv.tmLookup, hlk]
    rfl
  have hRemainNe : ∀ (d : String) (task : MatchTask),
      d ∈ (mapLookup ctx.dependents e.matchId).getD [] →
      mapLookup st.tasks d = some task →
      task.remainingDependencies ≠ [] := by
    intro d task hd hlk hempty
    obtain ⟨c, hc, hcid, hcend, hcev⟩ := hinv.depDone d task hlk e.matchId
      (hPendingDep d task hd hlk) (by rw [hempty]; exact List.not_mem_nil _)
    apply hcev
    rw [hev, List.map_cons]
    exact List.mem_cons_self _ _
  have hNewProps : ∀ x ∈ unlockNew e.matchId st.tasks
      ((mapLookup ctx.dependents e.matchId).getD []),
      x.id ∉ st.queue.map (fun q => q.id) ∧
      x.id ∉ st.schedule.map (fun c => c.matchId) ∧
      x.id ∈ (mapLookup ctx.dependents e.matchId).getD [] := by
    intro x hx
    obtain ⟨d, hd, task, hlk, herase, rfl⟩ := mem_unlockNew hx
    have hid2 : task.mtch.id = d := hTaskId d task hlk
    have hw := hinv.waiting d task hlk (hRemainNe d task hd hlk)
    refine ⟨?_, ?_, ?_⟩
    · show task.mtch.id ∉ _
      rw [hid2]
      exact hw.1
    · show task.mtch.id ∉ _
      rw [hid2]
      exact hw.2
    · show task.mtch.id ∈ _
      rw [hid2]
      exact hd
  have hNewIdsNd : ((unlockNew e.matchId st.tasks
      ((mapLookup ctx.dependents e.matchId).getD [])).map (fun q => q.id)).Nodup := by
    rw [unlockNew_ids hTaskId]
    exact hDepNd.filter _
  have hNewIdsSub : ∀ a : String, a ∈ (unlockNew e.matchId st.tasks
      ((mapLookup ctx.dependents e.matchId).getD [])).map (fun q => q.id) →
      a ∈ (mapLookup ctx.dependents e.matchId).getD [] := by
    intro a ha
    rw [unlockNew_ids hTaskId] at ha
    exact (List.mem_filter.mp ha).1
  have hNewIdsCond : ∀ a : String, a ∈ (unlockNew e.matchId st.tasks
      ((mapLookup ctx.dependents e.matchId).getD [])).map (fun q => q.id) →
      ∀ task : MatchTask, mapLookup st.tasks a = some task →
      task.remainingDependencies.erase e.matchId = [] := by
    intro a ha task hlk
    rw [unlockNew_ids hTaskId] at ha
    have hcond := (List.mem_filter.mp ha).2
    simp only [hlk] at hcond
    exact of_decide_eq_true hcond
  refine
    { tmProj := ?_
      tmKeysNodup := hinv.tmKeysNodup
      tmDur := hinv.tmDur
      tmId := hinv.tmId
      depSound := hinv.depSound
      depIdsNodup := hinv.depIdsNodup
      schedNodup := ?_
      schedMatch := ?_
      evNodup := ?_
      evSorted := ?_
      evEntry := ?_
      evTeams := ?_
      qTask := ?_
      qNotPlaced := ?_
      qNodup := ?_
      waiting := ?_
      placedDone := ?_
      depDone := ?_
      doneLeTime := ?_
      doneLeEvents := ?_
      teamPending := ?_
      teamDone := ?_
      restGap := ?_
      depOrder := ?_ }
  · rw [hTasksEq, unlock_taskMatches e.matchId _ st.tasks st.queue]
    exact hinv.tmProj
  · rw [hSchedEq]
    exact hinv.schedNodup
  · rw [hSchedEq]
    exact hinv.schedMatch
  · rw [hEventsEq]
    exact hEvNd0.2
  · rw [hEventsEq]
    exact hEvSort0.2
  · rw [hEventsEq, hSchedEq]
    intro e2 he2
    exact hinv.evEntry e2 (by rw [hev]; exact List.mem_cons_of_mem _ he2)
  · rw [hEventsEq]
    intro e2 he2
    exact hinv.evTeams e2 (by rw [hev]; exact List.mem_cons_of_mem _ he2)
  · -- qTask
    intro q hq
    rcases List.mem_append.mp (hQperm.mem_iff.mp hq) with hold | hnew
    · obtain ⟨task, hlk, hrem⟩ := hinv.qTask q hold
      rw [hT q.id]
      by_cases hd : q.id ∈ (mapLookup ctx.dependents e.matchId).getD []
      · rw [if_pos hd, hlk, Option.map_some']
        refine ⟨_, rfl, ?_⟩
        show task.remainingDependencies.erase e.matchId = []
        rw [hrem]
        rfl
      · rw [if_neg hd, hlk]
        exact ⟨task, rfl, hrem⟩
    · obtain ⟨d, hd, task, hlk, herase, rfl⟩ := mem_unlockNew hnew
      have hid2 : task.mtch.id = d := hTaskId d task hlk
      show ∃ task2, mapLookup (processEvent ctx e { st with events := rest }).tasks
        task.mtch.id = some task2 ∧ task2.remainingDependencies = []
      rw [hid2, hT d, if_pos hd, hlk, Option.map_some']
      exact ⟨_, rfl, herase⟩
  · -- qNotPlaced
    intro q hq
    rw [hSchedEq]
    rcases List.mem_append.mp (hQperm.mem_iff.mp hq) with hold | hnew
    · exact hinv.qNotPlaced q hold
    · exact (hNewProps q hnew).2.1
  · -- qNodup
    refine hQidsEq.nodup_iff.mpr ?_
    rw [List.nodup_append]
    refine ⟨hinv.qNodup, hNewIdsNd, ?_⟩
    intro a ha hanew
    obtain ⟨x, hx, rfl⟩ := List.mem_map.mp hanew
    exact (hNewProps x hx).1 ha
  · -- waiting
    intro id task' hlk' hne'
    rw [hT id] at hlk'
    by_cases hd : id ∈ (mapLookup ctx.dependents e.matchId).getD []
    · rw [if_pos hd] at hlk'
      cases hlk0 : mapLookup st.tasks id with
      | none =>
        rw [hlk0] at hlk'
        simp at hlk'
      | some task0 =>
        rw [hlk0, Option.map_some'] at hlk'
        injection hlk' with h2
        subst h2
        have hne0 : task0.remainingDependencies ≠ [] := by
          intro hc
          apply hne'
          show task0.remainingDependencies.erase e.matchId = []
          rw [hc]
          rfl
        have hw := hinv.waiting id task0 hlk0 hne0
        constructor
        · intro hin
          rcases List.mem_append.mp (hQidsEq.mem_iff.mp hin) with h | h
          · exact hw.1 h
          · have hcond := hNewIdsCond id h task0 hlk0
            apply hne'
            exact hcond
        · rw [hSchedEq]
          exact hw.2
    · rw [if_neg hd] at hlk'
      have hw := hinv.waiting id task' hlk' hne'
      constructor
      · intro hin
        rcases List.mem_append.mp (hQidsEq.mem_iff.mp hin) with h | h
        · exact hw.1 h
        · exact hd (hNewIdsSub id h)
      · rw [hSchedEq]
        exact hw.2
  · -- placedDone
    intro c hc task' hlk'
    rw [hSchedEq] at hc
    rw [hT] at hlk'
    by_cases hd : c.matchId ∈ (mapLookup ctx.dependents e.matchId).getD []
    · rw [if_pos hd] at hlk'
      cases hlk0 : mapLookup st.tasks c.matchId with
      | none =>
        rw [hlk0] at hlk'
        simp at hlk'
      | some task0 =>
        rw [hlk0, Option.map_some'] at hlk'
        injection hlk' with h2
        have hrem := hinv.placedDone c hc task0 hlk0
        rw [← h2]
        show task0.remainingDependencies.erase e.matchId = []
        rw [hrem]
        rfl
    · rw [if_neg hd] at hlk'
      exact hinv.placedDone c hc task' hlk'
  · -- depDone
    intro id task' hlk' d hd hdnot
    rw [hSchedEq, hTimeEq, hEventsEq]
    rw [hT] at hlk'
    by_cases hdep : id ∈ (mapLookup ctx.dependents e.matchId).getD []
    · rw [if_pos hdep] at hlk'
      cases hlk0 : mapLookup st.tasks id with
      | none =>
        rw [hlk0] at hlk'
        simp at hlk'
      | some task0 =>
        rw [hlk0, Option.map_some'] at hlk'
        injection hlk' with h2
        subst h2
        by_cases hde : d = e.matchId
        · subst hde
          refine ⟨ce, hceMem, hceId, ?_, ?_⟩
          · rw [← hceTime]
            exact hle
          · exact hEvNd0.1
        · have hdnot0 : d ∉ task0.remainingDependencies := by
            intro hc
            exact hdnot ((List.mem_erase_of_ne hde).mpr hc)
          obtain ⟨c, hc, hcid, hcend, hcev⟩ := hinv.depDone id task0 hlk0 d hd hdnot0
          refine ⟨c, hc, hcid, hcend, ?_⟩
          intro hin
          apply hcev
          rw [hev, List.map_cons]
          exact List.mem_cons_of_mem _ hin
    · rw [if_neg hdep] at hlk'
      obtain ⟨c, hc, hcid, hcend, hcev⟩ := hinv.depDone id task' hlk' d hd hdnot
      refine ⟨c, hc, hcid, hcend, ?_⟩
      intro hin
      apply hcev
      rw [hev, List.map_cons]
      exact List.mem_cons_of_mem _ hin
  · -- doneLeTime
    intro c hc hnotin
    rw [hSchedEq] at hc
    rw [hEventsEq] at hnotin
    rw [hTimeEq]
    by_cases hpre : c.matchId ∈ st.events.map (fun e2 => e2.matchId)
    · rw [hev, List.map_cons] at hpre
      rcases List.mem_cons.mp hpre with heq | hin
      · have hce : c = ce := eq_of_nodup_map hinv.schedNodup hc hceMem (heq.trans hceId.symm)
        rw [hce, ← hceTime]
        exact hle
      · exact absurd hin hnotin
    · exact hinv.doneLeTime c hc hpre
  · -- doneLeEvents
    intro c hc hnotin e2 he2
    rw [hSchedEq] at hc
    rw [hEventsEq] at hnotin he2
    by_cases hpre : c.matchId ∈ st.events.map (fun e3 => e3.matchId)
    · rw [hev, List.map_cons] at hpre
      rcases List.mem_cons.mp hpre with heq | hin
      · have hce : c = ce := eq_of_nodup_map hinv.schedNodup hc hceMem (heq.trans hceId.symm)
        rw [hce, ← hceTime]
        exact hEvSort0.1 e2 he2
      · exact absurd hin hnotin
    · exact hinv.doneLeEvents c hc hpre e2 (by rw [hev]; exact List.mem_cons_of_mem _ he2)
  · -- teamPending
    intro c hc hcin m hm tid htid
    rw [hSchedEq] at hc
    rw [hEventsEq] at hcin
    have hcin0 : c.matchId ∈ st.events.map (fun e2 => e2.matchId) := by
      rw [hev, List.map_cons]
      exact List.mem_cons_of_mem _ hcin
    obtain ⟨ts0, hts0, hcm⟩ := hinv.teamPending c hc hcin0 m hm tid htid
    rw [hTeams (some tid)]
    by_cases htouch : (some tid : Option String) = e.team1Id ∨ (some tid) = e.team2Id
    · exfalso
      have htid_me : tid ∈ getTeamIds me := by
        refine (mem_iff_getElem_of_len_le_two (getTeamIds_length me) tid).mpr ?_
        rcases htouch with h | h
        · exact Or.inl (h.trans hmeT1)
        · exact Or.inr (h.trans hmeT2)
      have hceIn : ce.matchId ∈ st.events.map (fun e2 => e2.matchId) := by
        rw [hceId, hev, List.map_cons]
        exact List.mem_cons_self _ _
      have hmce : mapLookup tm ce.matchId = some me := by
        rw [hceId]
        exact hmeLk
      obtain ⟨ts1, hts1, hcm1⟩ := hinv.teamPending ce hceMem hceIn me hmce tid htid_me
      rw [hts0] at hts1
      injection hts1 with h2
      rw [← h2] at hcm1
      rw [hcm] at hcm1
      injection hcm1 with h3
      apply hEvNd0.1
      rw [← hceId, ← h3]
      exact hcin
    · rw [if_neg htouch]
      exact ⟨ts0, hts0, hcm⟩
  · -- teamDone
    intro c hc hnotin m hm tid htid
    rw [hSchedEq] at hc
    rw [hEventsEq] at hnotin
    rw [hTeams (some tid)]
    by_cases hpre : c.matchId ∈ st.events.map (fun e2 => e2.matchId)
    · rw [hev, List.map_cons] at hpre
      rcases List.mem_cons.mp hpre with heq | hin
      · have hce : c = ce := eq_of_nodup_map hinv.schedNodup hc hceMem (heq.trans hceId.symm)
        have hmme : m = me := by
          rw [heq] at hm
          exact Option.some.inj (hm.symm.trans hmeLk)
        have htouch : (some tid : Option String) = e.team1Id ∨ (some tid) = e.team2Id := by
          have hmem := (mem_iff_getElem_of_len_le_two (getTeamIds_length me) tid).mp
            (hmme ▸ htid)
          rcases hmem with h | h
          · exact Or.inl (by rw [hmeT1]; exact h)
          · exact Or.inr (by rw [hmeT2]; exact h)
        rw [if_pos htouch]
        refine ⟨⟨e.time + ctx.restTime * 60000, none⟩, rfl, ?_⟩
        show c.endTime + ctx.restTime * 60000 ≤ e.time + ctx.restTime * 60000
        have hceq : c.endTime = e.time := by rw [hce, ← hceTime]
        omega
      · exact absurd hin hnotin
    · obtain ⟨ts0, hts0, havail⟩ := hinv.teamDone c hc hpre m hm tid htid
      by_cases htouch : (some tid : Option String) = e.team1Id ∨ (some tid) = e.team2Id
      · rw [if_pos htouch]
        refine ⟨⟨e.time + ctx.restTime * 60000, none⟩, rfl, ?_⟩
        show c.endTime + ctx.restTime * 60000 ≤ e.time + ctx.restTime * 60000
        have hcend : c.endTime ≤ e.time := hinv.doneLeEvents c hc hpre e heMem
        omega
      · rw [if_neg htouch]
        exact ⟨ts0, hts0, havail⟩
  · rw [hSchedEq]
    exact hinv.restGap
  · rw [hSchedEq]
    exact hinv.depOrder

theorem inv_flushAux {ctx : LoopCtx} {tm : List (String × MatchRec)} :
    ∀ (es : List Event) (st : LoopState), st.events = es → LoopInv ctx tm st →
    LoopInv ctx tm (flushAux ctx es st) := by
  intro es
  induction es with
  | nil =>
    intro st _ hinv
    exact hinv
  | cons e rest ih =>
    intro st hev hinv
    simp only [flushAux]
    split
    · rename_i hle
      exact ih _ rfl (inv_processEvent hinv hev hle)
    · exact hinv

theorem inv_flushEvents {ctx : LoopCtx} {tm : List (String × MatchRec)} {st : LoopState}
    (hinv : LoopInv ctx tm st) : LoopInv ctx tm (flushEvents ctx st) :=
  inv_flushAux st.events st rfl hinv

theorem inv_timeSet {ctx : LoopCtx} {tm : List (String × MatchRec)} {st : LoopState} {t : Int}
    (hinv : LoopInv ctx tm st) (hge : st.time ≤ t) :
    LoopInv ctx tm { st with time := t } := by
  refine
    { tmProj := hinv.tmProj
      tmKeysNodup := hinv.tmKeysNodup
      tmDur := hinv.tmDur
      tmId := hinv.tmId
      depSound := hinv.depSound
      depIdsNodup := hinv.depIdsNodup
      schedNodup := hinv.schedNodup
      schedMatch := hinv.schedMatch
      evNodup := hinv.evNodup
      evSorted := hinv.evSorted
      evEntry := hinv.evEntry
      evTeams := hinv.evTeams
      qTask := hinv.qTask
      qNotPlaced := hinv.qNotPlaced
      qNodup := hinv.qNodup
      waiting := hinv.waiting
      placedDone := hinv.placedDone
      depDone := ?_
      doneLeTime := ?_
      doneLeEvents := hinv.doneLeEvents
      teamPending := hinv.teamPending
      teamDone := hinv.teamDone
      restGap := hinv.restGap
      depOrder := hinv.depOrder }
  · intro id task hlk d hd hdn
    obtain ⟨c, hc, hcid, hcend, hcev⟩ := hinv.depDone id task hlk d hd hdn
    exact ⟨c, hc, hcid, le_trans hcend hge, hcev⟩
  · intro c hc hn
    exact le_trans (hinv.doneLeTime c hc hn) hge

theorem inv_tryPlace {ctx : LoopCtx} {tm : List (String × MatchRec)} {st : LoopState}
    {q : QItem} {st2 : LoopState} (hinv : LoopInv ctx tm st) (hq : q ∈ st.queue)
    (htp : tryPlace ctx st q = some st2) :
    LoopInv ctx tm st2 := by
  obtain ⟨task, ci, htask, hteams, hfac, hlate, rfl⟩ := tryPlace_eq_some htp
  have hTeq : placeStart ctx st task ci = st.time := placeStart_eq_time hlate
  have hqid : task.mtch.id = q.id := hinv.taskId htask
  obtain ⟨task0, hlk0, hrem0⟩ := hinv.qTask q hq
  have htt : task = task0 := Option.some.inj (htask.symm.trans hlk0)
  have hrem : task.remainingDependencies = [] := by rw [htt]; exact hrem0
  have hqnp := hinv.qNotPlaced q hq
  have hNewNotSched : task.mtch.id ∉ st.schedule.map (fun c => c.matchId) := by
    rw [hqid]
    exact hqnp
  have htmLk : mapLookup tm task.mtch.id = some task.mtch := by
    rw [hinv.tmLookup, hqid, htask]
    rfl
  have hdur : 0 < task.mtch.duration :=
    hinv.tmDur (task.mtch.id, task.mtch) (mapLookup_some_mem htmLk)
  have hdurMs : 0 < task.mtch.duration * 60000 := by omega
  have hNewNotEv : task.mtch.id ∉ st.events.map (fun e => e.matchId) := by
    intro hin
    obtain ⟨e2, he2, heid⟩ := List.mem_map.mp hin
    obtain ⟨c2, hc2, hc2id, _⟩ := hinv.evEntry e2 he2
    apply hNewNotSched
    refine List.mem_map.mpr ⟨c2, hc2, ?_⟩
    rw [hc2id, heid]
  have hAvail : ∀ tid ∈ getTeamIds task.mtch,
      mapLookup st.teamStates (some tid) = none ∨
        ∃ s0, mapLookup st.teamStates (some tid) = some s0 ∧
          s0.currentMatch = none ∧ s0.availableAt ≤ st.time :=
    fun tid htid => areTeamsAvailable_spec hteams htid
  have hSch : (placeResult ctx st task ci).schedule = st.schedule ++
      [⟨task.mtch.id, courtIdAt st.courtStates ci.1, placeStart ctx st task ci,
        placeStart ctx st task ci + task.mtch.duration * 60000, task.mtch.round⟩] := rfl
  have hTS : (placeResult ctx st task ci).teamStates =
      placeTeams task.mtch.id ctx.initialTime (getTeamIds task.mtch) st.teamStates := rfl
  have hevPerm : ((placeResult ctx st task ci).events.map (fun e => e.matchId)).Perm
      ((st.events ++ [(⟨placeStart ctx st task ci + task.mtch.duration * 60000, task.mtch.id,
        courtIdAt st.courtStates ci.1, (getTeamIds task.mtch)[0]?,
        (getTeamIds task.mtch)[1]?⟩ : Event)]).map (fun e => e.matchId)) :=
    (sortBy_perm eventLe _).map _
  have hEvIds : ∀ a : String,
      a ∈ (placeResult ctx st task ci).events.map (fun e => e.matchId) ↔
        (a ∈ st.events.map (fun e => e.matchId) ∨ a = task.mtch.id) := by
    intro a
    constructor
    · intro ha
      have h2 := hevPerm.mem_iff.mp ha
      simp only [List.map_append, List.map_cons, List.map_nil] at h2
      rcases List.mem_append.mp h2 with h | h
      · exact Or.inl h
      · exact Or.inr (List.mem_singleton.mp h)
    · intro ha
      refine hevPerm.mem_iff.mpr ?_
      simp only [List.map_append, List.map_cons, List.map_nil]
      rcases ha with h | h
      · exact List.mem_append.mpr (Or.inl h)
      · exact List.mem_append.mpr (Or.inr (List.mem_singleton.mpr h))
  refine
    { tmProj := hinv.tmProj
      tmKeysNodup := hinv.tmKeysNodup
      tmDur := hinv.tmDur
      tmId := hinv.tmId
      depSound := hinv.depSound
      depIdsNodup := hinv.depIdsNodup
      schedNodup := ?_
      schedMatch := ?_
      evNodup := ?_
      evSorted := sortBy_eventLe_pairwise _
      evEntry := ?_
      evTeams := ?_
      qTask := ?_
      qNotPlaced := ?_
      qNodup := queueRemove_ids_nodup hinv.qNodup
      waiting := ?_
      placedDone := ?_
      depDone := ?_
      doneLeTime := ?_
      doneLeEvents := ?_
      teamPending := ?_
      teamDone := ?_
      restGap := ?_
      depOrder := ?_ }
  · -- schedNodup
    rw [hSch]
    simp only [List.map_append, List.map_cons, List.map_nil]
    rw [List.nodup_append]
    refine ⟨hinv.schedNodup, List.nodup_singleton _, ?_⟩
    intro a ha hamem
    exact hNewNotSched (List.mem_singleton.mp hamem ▸ ha)
  · -- schedMatch
    intro c hc
    rw [hSch] at hc
    rcases List.mem_append.mp hc with hold | hnew
    · exact hinv.schedMatch c hold
    · rw [List.mem_singleton] at hnew
      subst hnew
      exact ⟨task.mtch, htmLk, rfl⟩
  · -- evNodup
    refine hevPerm.nodup_iff.mpr ?_
    simp only [List.map_append, List.map_cons, List.map_nil]
    rw [List.nodup_append]
    refine ⟨hinv.evNodup, List.nodup_singleton _, ?_⟩
    intro a ha hamem
    exact hNewNotEv (List.mem_singleton.mp hamem ▸ ha)
  · -- evEntry
    intro e2 he2
    rcases List.mem_append.mp (mem_sortBy.mp he2) with hold | hnew
    · obtain ⟨c, hc, hcid, htime⟩ := hinv.evEntry e2 hold
      refine ⟨c, ?_, hcid, htime⟩
      rw [hSch]
      exact List.mem_append.mpr (Or.inl hc)
    · rw [List.mem_singleton] at hnew
      subst hnew
      refine ⟨⟨task.mtch.id, courtIdAt st.courtStates ci.1, placeStart ctx st task ci,
        placeStart ctx st task ci + task.mtch.duration * 60000, task.mtch.round⟩, ?_, rfl, rfl⟩
      rw [hSch]
      exact List.mem_append.mpr (Or.inr (List.mem_singleton.mpr rfl))
  · -- evTeams
    intro e2 he2
    rcases List.mem_append.mp (mem_sortBy.mp he2) with hold | hnew
    · exact hinv.evTeams e2 hold
    · rw [List.mem_singleton] at hnew
      subst hnew
      exact ⟨task.mtch, htmLk, rfl, rfl⟩
  · -- qTask
    intro q2 hq2
    exact hinv.qTask q2 (mem_queueRemove hq2)
  · -- qNotPlaced
    intro q2 hq2
    have hmem := mem_queueRemove hq2
    have hne := queueRemove_id_ne hinv.qNodup hq2
    rw [hSch]
    intro hc
    simp only [List.map_append, List.map_cons, List.map_nil] at hc
    rcases List.mem_append.mp hc with h | h
    · exact hinv.qNotPlaced q2 hmem h
    · exact hne (List.mem_singleton.mp h)
  · -- waiting
    intro id task' hlk' hne'
    have hw := hinv.waiting id task' hlk' hne'
    constructor
    · intro hin
      obtain ⟨q2, hq2, rfl⟩ := List.mem_map.mp hin
      exact hw.1 (List.mem_map.mpr ⟨q2, mem_queueRemove hq2, rfl⟩)
    · rw [hSch]
      intro hc
      simp only [List.map_append, List.map_cons, List.map_nil] at hc
      rcases List.mem_append.mp hc with h | h
      · exact hw.2 h
      · have h2 : id = task.mtch.id := List.mem_singleton.mp h
        rw [h2, hqid] at hlk'
        have h3 : task = task' := Option.some.inj (htask.symm.trans hlk')
        apply hne'
        rw [← h3]
        exact hrem
  · -- placedDone
    intro c hc task' hlk'
    rw [hSch] at hc
    rcases List.mem_append.mp hc with hold | hnew
    · exact hinv.placedDone c hold task' hlk'
    · rw [List.mem_singleton] at hnew
      subst hnew
      have hlk2 : mapLookup st.tasks q.id = some task' := by rw [← hqid]; exact hlk'
      have h3 : task = task' := Option.some.inj (htask.symm.trans hlk2)
      rw [← h3]
      exact hrem
  · -- depDone
    intro id task' hlk' d hd hdn
    obtain ⟨c, hc, hcid, hcend, hcev⟩ := hinv.depDone id task' hlk' d hd hdn
    refine ⟨c, ?_, hcid, hcend, ?_⟩
    · rw [hSch]
      exact List.mem_append.mpr (Or.inl hc)
    · intro hin
      rcases (hEvIds d).mp hin with h | h
      · exact hcev h
      · apply hNewNotSched
        rw [← h, ← hcid]
        exact List.mem_map.mpr ⟨c, hc, rfl⟩
  · -- doneLeTime
    intro c hc hnotin
    rw [hSch] at hc
    rcases List.mem_append.mp hc with hold | hnew
    · exact hinv.doneLeTime c hold (fun hin => hnotin ((hEvIds _).mpr (Or.inl hin)))
    · rw [List.mem_singleton] at hnew
      exfalso
      apply hnotin
      refine (hEvIds _).mpr (Or.inr ?_)
      rw [hnew]
  · -- doneLeEvents
    intro c hc hnotin e2 he2
    rw [hSch] at hc
    rcases List.mem_append.mp hc with hold | hnew
    · have hnotin' : c.matchId ∉ st.events.map (fun e => e.matchId) :=
        fun hin => hnotin ((hEvIds _).mpr (Or.inl hin))
      rcases List.mem_append.mp (mem_sortBy.mp he2) with h2 | h2
      · exact hinv.doneLeEvents c hold hnotin' e2 h2
      · rw [List.mem_singleton] at h2
        subst h2
        show c.endTime ≤ placeStart ctx st task ci + task.mtch.duration * 60000
        have hct := hinv.doneLeTime c hold hnotin'
        omega
    · rw [List.mem_singleton] at hnew
      exfalso
      apply hnotin
      refine (hEvIds _).mpr (Or.inr ?_)
      rw [hnew]
  · -- teamPending
    intro c hc hcin m hm tid htid
    rw [hSch] at hc
    rcases List.mem_append.mp hc with hold | hnew
    · rcases (hEvIds _).mp hcin with hcin' | hcin'
      · obtain ⟨ts0, hts0, hcm⟩ := hinv.teamPending c hold hcin' m hm tid htid
        by_cases htid2 : tid ∈ getTeamIds task.mtch
        · exfalso
          rcases hAvail tid htid2 with h | ⟨s0, hs0, hcm0, _⟩
          · rw [h] at hts0
            exact absurd hts0 (by simp)
          · have h2 : s0 = ts0 := Option.some.inj (hs0.symm.trans hts0)
            rw [h2] at hcm0
            rw [hcm0] at hcm
            exact absurd hcm (by simp)
        · refine ⟨ts0, ?_, hcm⟩
          rw [hTS]
          rw [placeTeams_lookup_notmem task.mtch.id ctx.initialTime (getTeamIds task.mtch)
            st.teamStates (some tid) (fun t2 ht2 hcon => htid2 (by
              injection hcon with h4
              rw [h4]
              exact ht2))]
          exact hts0
      · exfalso
        apply hNewNotSched
        rw [← hcin']
        exact List.mem_map.mpr ⟨c, hold, rfl⟩
    · rw [List.mem_singleton] at hnew
      subst hnew
      have hmEq : m = task.mtch := Option.some.inj (hm.symm.trans htmLk)
      refine ⟨_, placeTeams_lookup_mem task.mtch.id ctx.initialTime (getTeamIds task.mtch)
        st.teamStates (hmEq ▸ htid), rfl⟩
  · -- teamDone
    intro c hc hnotin m hm tid htid
    rw [hSch] at hc
    rcases List.mem_append.mp hc with hold | hnew
    · have hnotin' : c.matchId ∉ st.events.map (fun e => e.matchId) :=
        fun hin => hnotin ((hEvIds _).mpr (Or.inl hin))
      obtain ⟨ts0, hts0, havail⟩ := hinv.teamDone c hold hnotin' m hm tid htid
      by_cases htid2 : tid ∈ getTeamIds task.mtch
      · have hlk2 := placeTeams_lookup_mem task.mtch.id ctx.initialTime (getTeamIds task.mtch)
          st.teamStates htid2
        rw [hts0] at hlk2
        simp only [Option.map_some', Option.getD_some] at hlk2
        exact ⟨_, hlk2, havail⟩
      · refine ⟨ts0, ?_, havail⟩
        rw [hTS]
        rw [placeTeams_lookup_notmem task.mtch.id ctx.initialTime (getTeamIds task.mtch)
          st.teamStates (some tid) (fun t2 ht2 hcon => htid2 (by
            injection hcon with h4
            rw [h4]
            exact ht2))]
        exact hts0
    · rw [List.mem_singleton] at hnew
      exfalso
      apply hnotin
      refine (hEvIds _).mpr (Or.inr ?_)
      rw [hnew]
  · -- restGap
    rw [hSch]
    rw [List.pairwise_append]
    refine ⟨hinv.restGap, List.pairwise_singleton _ _, ?_⟩
    intro c1 hc1 c2 hc2
    rw [List.mem_singleton] at hc2
    subst hc2
    intro m1 m2 hm1 hm2 tid htid1 htid2
    have hm2' : m2 = task.mtch := Option.some.inj (hm2.symm.trans htmLk)
    show c1.endTime + ctx.restTime * 60000 ≤ placeStart ctx st task ci
    by_cases hpend : c1.matchId ∈ st.events.map (fun e => e.matchId)
    · exfalso
      obtain ⟨ts0, hts0, hcm⟩ := hinv.teamPending c1 hc1 hpend m1 hm1 tid htid1
      rcases hAvail tid (hm2' ▸ htid2) with h | ⟨s0, hs0, hcm0, _⟩
      · rw [h] at hts0
        exact absurd hts0 (by simp)
      · have h2 : s0 = ts0 := Option.some.inj (hs0.symm.trans hts0)
        rw [h2] at hcm0
        rw [hcm0] at hcm
        exact absurd hcm (by simp)
    · obtain ⟨ts0, hts0, havail⟩ := hinv.teamDone c1 hc1 hpend m1 hm1 tid htid1
      have h1 : ts0.availableAt ≤ calculateEarliestStartTime task.mtch st.time st.teamStates :=
        calculateEarliestStartTime_ge_avail task.mtch st.time st.teamStates
          (hm2' ▸ htid2) hts0
      have h2 := placeStart_ge_calc ctx st task ci
      omega
  · -- depOrder
    intro c hc m hm d hd c2 hc2 hc2id
    rw [hSch] at hc hc2
    rcases List.mem_append.mp hc with holdc | hnewc
    · rcases List.mem_append.mp hc2 with holdc2 | hnewc2
      · exact hinv.depOrder c holdc m hm d hd c2 holdc2 hc2id
      · exfalso
        rw [List.mem_singleton] at hnewc2
        have hd2 : task.mtch.id = d := by rw [← hc2id, hnewc2]
        have hmc : (mapLookup st.tasks c.matchId).map (fun t => t.mtch) = some m := by
          rw [← hinv.tmLookup]
          exact hm
        cases hlkc : mapLookup st.tasks c.matchId with
        | none =>
          rw [hlkc] at hmc
          simp at hmc
        | some taskc =>
          rw [hlkc, Option.map_some'] at hmc
          have hmceq : taskc.mtch = m := Option.some.inj hmc
          have hremc := hinv.placedDone c holdc taskc hlkc
          obtain ⟨c3, hc3, hc3id, _, _⟩ := hinv.depDone c.matchId taskc hlkc d
            (mem_setOfList.mpr (by rw [hmceq]; exact hd))
            (by rw [hremc]; exact List.not_mem_nil _)
          apply hNewNotSched
          rw [hd2, ← hc3id]
          exact List.mem_map.mpr ⟨c3, hc3, rfl⟩
    · rw [List.mem_singleton] at hnewc
      have hmEq : m = task.mtch := by
        subst hnewc
        exact Option.some.inj (hm.symm.trans htmLk)
      have hdep := hinv.depDone q.id task htask d
        (mem_setOfList.mpr (by rw [← hmEq]; exact hd))
        (by rw [hrem]; exact List.not_mem_nil _)
      obtain ⟨c3, hc3, hc3id, hc3end, _⟩ := hdep
      rcases List.mem_append.mp hc2 with holdc2 | hnewc2
      · have hceq : c2 = c3 := eq_of_nodup_map hinv.schedNodup holdc2 hc3
          (hc2id.trans hc3id.symm)
        subst hnewc
        show c2.endTime ≤ placeStart ctx st task ci
        rw [hceq]
        omega
      · exfalso
        rw [List.mem_singleton] at hnewc2
        apply hNewNotSched
        have hd2 : task.mtch.id = d := by rw [← hc2id, hnewc2]
        rw [hd2, ← hc3id]
        exact List.mem_map.mpr ⟨c3, hc3, rfl⟩

theorem inv_runLoop {ctx : LoopCtx} {tm : List (String × MatchRec)} :
    ∀ (fuel : Nat) (st stf : LoopState), runLoop ctx fuel st = .ok stf →
    LoopInv ctx tm st → LoopInv ctx tm stf ∧ stf.events = [] ∧ stf.queue = [] := by
  intro fuel
  induction fuel with
  | zero =>
    intro st stf h _
    exact absurd h (by simp [runLoop])
  | succ n ih =>
    intro st stf h hinv
    rw [runLoop] at h
    split at h
    · rename_i hterm
      injection h with h2
      subst h2
      exact ⟨hinv, hterm.2, hterm.1⟩
    · have hflinv : LoopInv ctx tm (flushEvents ctx st) := inv_flushEvents hinv
      have hfl : (flushEvents ctx st).events = [] ∨
          ∃ e2 rest2, (flushEvents ctx st).events = e2 :: rest2 ∧
            ¬ e2.time ≤ (flushEvents ctx st).time :=
        flushAux_flushed ctx st.events st rfl
      split at h
      · rename_i st2 hpp
        obtain ⟨q, hqmem, htp⟩ := placePass_eq_some hpp
        exact ih _ _ h (inv_tryPlace hflinv hqmem htp)
      · split at h
        · rename_i e es hes
          rcases hfl with h0 | ⟨e2, rest2, hev2, hlate⟩
          · rw [h0] at hes
            exact absurd hes (by simp)
          · rw [hes] at hev2
            injection hev2 with h3 h4
            refine ih _ _ h (inv_timeSet hflinv ?_)
            rw [h3]
            exact le_of_lt (not_le.mp hlate)
        · rename_i hese
          split at h
          · rename_i hqe
            injection h with h2
            subst h2
            exact ⟨hflinv, hese, hqe⟩
          · split at h
            · rename_i hlt
              refine ih _ _ h (inv_timeSet hflinv ?_)
              exact le_of_lt (nextAvailTime_gt hlt)
            · exact absurd h (by simp)

theorem initQueue_ids (l : List (String × MatchTask)) :
    ((l.filterMap (fun kv => if kv.2.remainingDependencies = [] then
      some (⟨kv.2.mtch.id, kv.2.mtch.round⟩ : QItem) else none)).map (fun q => q.id)) =
    (l.filter (fun kv => decide (kv.2.remainingDependencies = []))).map
      (fun kv => kv.2.mtch.id) := by
  induction l with
  | nil => rfl
  | cons kv rest ih =>
    simp only [List.filterMap_cons, List.filter_cons]
    by_cases hre : kv.2.remainingDependencies = []
    · simp only [if_pos hre, decide_eq_true hre, if_pos rfl, List.map_cons, ih]
      simp
    · have hd : decide (kv.2.remainingDependencies = []) = false := decide_eq_false hre
      simp only [if_neg hre, hd, Bool.false_eq_true, if_false]
      exact ih

theorem loopInv_init {matchList : List MatchRec} {courts : List Court}
    {config : SchedulerConfig} {now : Int}
    (hids : (matchList.map (fun m => m.id)).Nodup)
    (hdur : ∀ m ∈ matchList, 0 < m.duration) :
    LoopInv (smCtx matchList config now) (matchMapOf matchList)
      (smInit matchList courts config now) := by
  have hkeys : (matchMapOf matchList).map Prod.fst = (buildTasks matchList).map Prod.fst :=
    taskMatches_keys _
  refine
    { tmProj := rfl
      tmKeysNodup := ?_
      tmDur := ?_
      tmId := ?_
      depSound := ?_
      depIdsNodup := fun cid => buildDependents_bucket_nodup matchList cid
      schedNodup := List.nodup_nil
      schedMatch := fun c hc => absurd hc (List.not_mem_nil _)
      evNodup := List.nodup_nil
      evSorted := List.Pairwise.nil
      evEntry := fun e he => absurd he (List.not_mem_nil _)
      evTeams := fun e he => absurd he (List.not_mem_nil _)
      qTask := ?_
      qNotPlaced := fun q hq => List.not_mem_nil _
      qNodup := ?_
      waiting := ?_
      placedDone := fun c hc => absurd hc (List.not_mem_nil _)
      depDone := ?_
      doneLeTime := fun c hc => absurd hc (List.not_mem_nil _)
      doneLeEvents := fun c hc => absurd hc (List.not_mem_nil _)
      teamPending := fun c hc => absurd hc (List.not_mem_nil _)
      teamDone := fun c hc => absurd hc (List.not_mem_nil _)
      restGap := List.Pairwise.nil
      depOrder := fun c hc => absurd hc (List.not_mem_nil _) }
  · rw [hkeys]
    exact buildTasks_keys_nodup _
  · intro kv hkv
    simp only [matchMapOf, taskMatches] at hkv
    obtain ⟨kv0, hkv0, hproj⟩ := List.mem_map.mp hkv
    rw [← hproj]
    exact hdur _ (buildTasks_mem hkv0).1
  · intro kv hkv
    simp only [matchMapOf, taskMatches] at hkv
    obtain ⟨kv0, hkv0, hproj⟩ := List.mem_map.mp hkv
    rw [← hproj]
    exact (buildTasks_mem hkv0).2.1
  · intro cid d hd m hm
    obtain ⟨m2, hm2mem, hm2id, hcid⟩ := buildDependents_mem hd
    have hlk2 := buildTasks_lookup_of_mem hids hm2mem
    have hm' : (mapLookup (buildTasks matchList) d).map (fun t => t.mtch) = some m := by
      rw [← taskMatches_lookup]
      exact hm
    rw [hm2id] at hlk2
    rw [hlk2, Option.map_some'] at hm'
    have hm2eq : m2 = m := Option.some.inj hm'
    rw [← hm2eq]
    exact mem_setOfList.mpr hcid
  · -- qTask
    intro q2 hq2
    have hq3 := (initQueue_perm (buildTasks matchList)).mem_iff.mp hq2
    obtain ⟨kv, hkv, hfkv⟩ := List.mem_filterMap.mp hq3
    by_cases hre : kv.2.remainingDependencies = []
    · rw [if_pos hre] at hfkv
      injection hfkv with h2
      subst h2
      refine ⟨kv.2, ?_, hre⟩
      show mapLookup (buildTasks matchList) kv.2.mtch.id = some kv.2
      rw [(buildTasks_mem hkv).2.1]
      exact mem_mapLookup (buildTasks_keys_nodup _) hkv
    · rw [if_neg hre] at hfkv
      exact absurd hfkv (by simp)
  · -- qNodup
    have hperm := (initQueue_perm (buildTasks matchList)).map (fun q => q.id)
    refine hperm.nodup_iff.mpr ?_
    rw [initQueue_ids]
    have hcongr : (List.filter (fun kv => decide (kv.2.remainingDependencies = []))
        (buildTasks matchList)).map (fun kv => kv.2.mtch.id) =
        (List.filter (fun kv => decide (kv.2.remainingDependencies = []))
        (buildTasks matchList)).map Prod.fst := by
      refine List.map_congr_left ?_
      intro kv hkv
      exact (buildTasks_mem (List.mem_of_mem_filter hkv)).2.1
    rw [hcongr]
    exact ((List.filter_sublist _).map Prod.fst).nodup (buildTasks_keys_nodup _)
  · -- waiting
    intro id task hlk hne
    constructor
    · intro hin
      obtain ⟨q2, hq2, rfl⟩ := List.mem_map.mp hin
      have hq3 := (initQueue_perm (buildTasks matchList)).mem_iff.mp hq2
      obtain ⟨kv, hkv, hfkv⟩ := List.mem_filterMap.mp hq3
      by_cases hre : kv.2.remainingDependencies = []
      · rw [if_pos hre] at hfkv
        injection hfkv with h2
        have hlk2 : mapLookup (buildTasks matchList) kv.1 = some kv.2 :=
          mem_mapLookup (buildTasks_keys_nodup _) hkv
        have hids2 : q2.id = kv.1 := by
          rw [← h2]
          exact (buildTasks_mem hkv).2.1
        rw [hids2] at hlk
        have : task = kv.2 := Option.some.inj (hlk.symm.trans hlk2)
        rw [this] at hne
        exact hne hre
      · rw [if_neg hre] at hfkv
        exact absurd hfkv (by simp)
    · exact List.not_mem_nil _
  · -- depDone
    intro id task hlk d hd hdn
    have hmem := buildTasks_mem (mapLookup_some_mem hlk)
    exact absurd (by rw [hmem.2.2]; exact hd) hdn

/-- The teams of the match with the given id, as recorded in the id-keyed
match map (`[]` when the id is unknown). -/
def matchTeams (matchList : List MatchRec) (id : String) : List String :=
  ((mapLookup (matchMapOf matchList) id).map getTeamIds).getD []

/-- The declared dependencies of the match with the given id (`[]` when the
id is unknown). -/
def matchDeps (matchList : List MatchRec) (id : String) : List String :=
  ((mapLookup (matchMapOf matchList) id).map (fun m => m.dependencies)).getD []

theorem mem_matchTeams {matchList : List MatchRec} {id tid : String}
    (h : tid ∈ matchTeams matchList id) :
    ∃ m, mapLookup (matchMapOf matchList) id = some m ∧ tid ∈ getTeamIds m := by
  unfold matchTeams at h
  cases hlk : mapLookup (matchMapOf matchList) id with
  | none =>
    rw [hlk] at h
    simp at h
  | some m =>
    rw [hlk] at h
    exact ⟨m, rfl, by simpa using h⟩

theorem mem_matchDeps {matchList : List MatchRec} {id d : String}
    (h : d ∈ matchDeps matchList id) :
    ∃ m, mapLookup (matchMapOf matchList) id = some m ∧ d ∈ m.dependencies := by
  unfold matchDeps at h
  cases hlk : mapLookup (matchMapOf matchList) id with
  | none =>
    rw [hlk] at h
    simp at h
  | some m =>
    rw [hlk] at h
    exact ⟨m, rfl, by simpa using h⟩

/-- C3: in every schedule produced by `scheduleMatches` (on inputs with
distinct match ids and positive durations, and a non-negative rest time),
any two distinct matches sharing a team are separated by at least the
configured rest time: the later one starts no earlier than the earlier
one's end plus `restTime` minutes. -/
theorem scheduleMatches_rest_time :
    ∀ (matchList : List MatchRec) (courts : List Court) (config : SchedulerConfig)
      (now : Int) (fuel : Nat) (r : ScheduleResult),
      (matchList.map (fun m => m.id)).Nodup →
      (∀ m ∈ matchList, 0 < m.duration) →
      0 ≤ config.restTime →
      scheduleMatches matchList courts config now fuel = .ok r →
      ∀ c1 ∈ r.schedule, ∀ c2 ∈ r.schedule,
        ∀ tid ∈ matchTeams matchList c1.matchId,
        tid ∈ matchTeams matchList c2.matchId →
        c1.matchId ≠ c2.matchId → c1.startTime ≤ c2.startTime →
        c1.endTime + config.restTime * 60000 ≤ c2.startTime := by
  intro ml cs cfg now fuel r hids hdur hrest hok c1 hc1 c2 hc2 tid ht1 ht2 hne hle
  obtain ⟨m1, hm1, htid1⟩ := mem_matchTeams ht1
  obtain ⟨m2, hm2, htid2⟩ := mem_matchTeams ht2
  obtain ⟨stf, hrun, _, hschedEq, _⟩ := scheduleMatches_ok_elim hok
  obtain ⟨hinv, _, _⟩ := inv_runLoop fuel _ stf hrun (loopInv_init hids hdur)
  rw [hschedEq] at hc1 hc2
  have hc1' : c1 ∈ stf.schedule := mem_sortBy.mp hc1
  have hc2' : c2 ∈ stf.schedule := mem_sortBy.mp hc2
  have hcne : c1 ≠ c2 := fun hcc => hne (by rw [hcc])
  have hrw : (smCtx ml cfg now).restTime = cfg.restTime := rfl
  rcases pairwise_mem_or hinv.restGap hc1' hc2' hcne with h | h
  · have hgap := h m1 m2 hm1 hm2 tid htid1 htid2
    rw [hrw] at hgap
    exact hgap
  · have hgap := h m2 m1 hm2 hm1 tid htid2 htid1
    rw [hrw] at hgap
    obtain ⟨m2', hm2', hend2⟩ := hinv.schedMatch c2 hc2'
    have hmm : m2' = m2 := Option.some.inj (hm2'.symm.trans hm2)
    rw [hmm] at hend2
    have hdur2 : 0 < m2.duration := hinv.tmDur (c2.matchId, m2) (mapLookup_some_mem hm2)
    have hdms : 0 < m2.duration * 60000 := by omega
    exfalso
    omega

/-- C4: in every schedule produced by `scheduleMatches` (on inputs with
distinct match ids and positive durations), every match starts at or after
the end of each of its declared dependencies that appears in the schedule,
hence at or after the maximum dependency end time. -/
theorem scheduleMatches_dependency_order :
    ∀ (matchList : List MatchRec) (courts : List Court) (config : SchedulerConfig)
      (now : Int) (fuel : Nat) (r : ScheduleResult),
      (matchList.map (fun m => m.id)).Nodup →
      (∀ m ∈ matchList, 0 < m.duration) →
      scheduleMatches matchList courts config now fuel = .ok r →
      ∀ c ∈ r.schedule, ∀ d ∈ matchDeps matchList c.matchId,
        ∀ c2 ∈ r.schedule, c2.matchId = d → c2.endTime ≤ c.startTime := by
  intro ml cs cfg now fuel r hids hdur hok c hc d hd c2 hc2 hc2id
  obtain ⟨m, hm, hdm⟩ := mem_matchDeps hd
  obtain ⟨stf, hrun, _, hschedEq, _⟩ := scheduleMatches_ok_elim hok
  obtain ⟨hinv, _, _⟩ := inv_runLoop fuel _ stf hrun (loopInv_init hids hdur)
  rw [hschedEq] at hc hc2
  exact hinv.depOrder c (mem_sortBy.mp hc) m hm d hdm c2 (mem_sortBy.mp hc2) hc2id

/-- C5: in every schedule produced by `scheduleMatches` (on inputs with
distinct match ids and positive durations, and a non-negative rest time),
the `[start, end)` intervals of two distinct matches sharing a team never
overlap: one ends before the other starts. -/
theorem scheduleMatches_no_double_booking :
    ∀ (matchList : List MatchRec) (courts : List Court) (config : SchedulerConfig)
      (now : Int) (fuel : Nat) (r : ScheduleResult),
      (matchList.map (fun m => m.id)).Nodup →
      (∀ m ∈ matchList, 0 < m.duration) →
      0 ≤ config.restTime →
      scheduleMatches matchList courts config now fuel = .ok r →
      ∀ c1 ∈ r.schedule, ∀ c2 ∈ r.schedule,
        ∀ tid ∈ matchTeams matchList c1.matchId,
        tid ∈ matchTeams matchList c2.matchId →
        c1.matchId ≠ c2.matchId →
        c1.endTime ≤ c2.startTime ∨ c2.endTime ≤ c1.startTime := by
  intro ml cs cfg now fuel r hids hdur hrest hok c1 hc1 c2 hc2 tid ht1 ht2 hne
  obtain ⟨m1, hm1, htid1⟩ := mem_matchTeams ht1
  obtain ⟨m2, hm2, htid2⟩ := mem_matchTeams ht2
  obtain ⟨stf, hrun, _, hschedEq, _⟩ := scheduleMatches_ok_elim hok
  obtain ⟨hinv, _, _⟩ := inv_runLoop fuel _ stf hrun (loopInv_init hids hdur)
  rw [hschedEq] at hc1 hc2
  have hc1' : c1 ∈ stf.schedule := mem_sortBy.mp hc1
  have hc2' : c2 ∈ stf.schedule := mem_sortBy.mp hc2
  have hcne : c1 ≠ c2 := fun hcc => hne (by rw [hcc])
  have hrw : (smCtx ml cfg now).restTime = cfg.restTime := rfl
  rcases pairwise_mem_or hinv.restGap hc1' hc2' hcne with h | h
  · have hgap := h m1 m2 hm1 hm2 tid htid1 htid2
    rw [hrw] at hgap
    left
    omega
  · have hgap := h m2 m1 hm2 hm1 tid htid2 htid1
    rw [hrw] at hgap
    right
    omega

/-- A second match sharing team `A` with `exM1`, for the rest-time and
double-booking witnesses. -/
def exM4 : MatchRec := ⟨"M4", "A", "C", 1, 30, []⟩

/-- Witness for C3 on a concrete run in which team `A` plays twice: the
second appearance starts exactly `restTime` minutes after the first ends. -/
theorem scheduleMatches_rest_time_witness :
    (scheduleMatches [exM1, exM4] exCourts exCfg 0 12).map
      (fun r => decide (∀ c1 ∈ r.schedule, ∀ c2 ∈ r.schedule,
        ∀ tid ∈ matchTeams [exM1, exM4] c1.matchId,
        tid ∈ matchTeams [exM1, exM4] c2.matchId →
        c1.matchId ≠ c2.matchId → c1.startTime ≤ c2.startTime →
        c1.endTime + exCfg.restTime * 60000 ≤ c2.startTime)) = .ok true := by
  cases hEq : scheduleMatches [exM1, exM4] exCourts exCfg 0 12 with
  | error e =>
    have hok : (scheduleMatches [exM1, exM4] exCourts exCfg 0 12).isOk = true := by decide
    rw [hEq] at hok
    exact absurd hok (by simp [Except.isOk, Except.toBool])
  | ok r =>
    have hp := scheduleMatches_rest_time [exM1, exM4] exCourts exCfg 0 12 r
      (by decide) (by decide) (by decide) hEq
    simp [Except.map, decide_eq_true hp]

/-- Witness for C4 on a concrete run with a final that depends on two
semifinals: it starts only after both have ended. -/
theorem scheduleMatches_dependency_order_witness :
    (scheduleMatches [exM1, exM2, exM3] exCourts exCfg 0 12).map
      (fun r => decide (∀ c ∈ r.schedule, ∀ d ∈ matchDeps [exM1, exM2, exM3] c.matchId,
        ∀ c2 ∈ r.schedule, c2.matchId = d → c2.endTime ≤ c.startTime)) = .ok true := by
  cases hEq : scheduleMatches [exM1, exM2, exM3] exCourts exCfg 0 12 with
  | error e =>
    have hok : (scheduleMatches [exM1, exM2, exM3] exCourts exCfg 0 12).isOk = true := by
      decide
    rw [hEq] at hok
    exact absurd hok (by simp [Except.isOk, Except.toBool])
  | ok r =>
    have hp := scheduleMatches_dependency_order [exM1, exM2, exM3] exCourts exCfg 0 12 r
      (by decide) (by decide) hEq
    simp [Except.map, decide_eq_true hp]

/-- Witness for C5 on the same two-appearances-of-team-`A` run: the two
intervals of `A` are disjoint. -/
theorem scheduleMatches_no_double_booking_witness :
    (scheduleMatches [exM1, exM4] exCourts exCfg 0 12).map
      (fun r => decide (∀ c1 ∈ r.schedule, ∀ c2 ∈ r.schedule,
        ∀ tid ∈ matchTeams [exM1, exM4] c1.matchId,
        tid ∈ matchTeams [exM1, exM4] c2.matchId →
        c1.matchId ≠ c2.matchId →
        (c1.endTime ≤ c2.startTime ∨ c2.endTime ≤ c1.startTime))) = .ok true := by
  cases hEq : scheduleMatches [exM1, exM4] exCourts exCfg 0 12 with
  | error e =>
    have hok : (scheduleMatches [exM1, exM4] exCourts exCfg 0 12).isOk = true := by decide
    rw [hEq] at hok
    exact absurd hok (by simp [Except.isOk, Except.toBool])
  | ok r =>
    have hp := scheduleMatches_no_double_booking [exM1, exM4] exCourts exCfg 0 12 r
      (by decide) (by decide) (by decide) hEq
    simp [Except.map, decide_eq_true hp]
